import Mathlib

/-!
# bgrep: binary grep

A shallow embedding of `src/bgrep.c`.  Bytes and `char`s are natural numbers
(a byte is a value below 256); a C string is the list of its bytes, the
terminating NUL being the end of the list.
-/

namespace Bgrep

/-- The source's `const unsigned int MAX_PATTERN=512;` -/
def MAX_PATTERN : Nat := 512

/-- The source's `const unsigned int BUFFER_SIZE=1024;` -/
def BUFFER_SIZE : Nat := 1024

/-! ## The pattern compiler (the parsing loop of `main`) -/

/-- The source's `int ascii2hex(char c)`: the value of a hex digit, `-1` for
any other character.  A `char` at or above 0x80 is negative where `char` is
signed and above `'f'` where it is unsigned: `-1` either way. -/
def ascii2hex (c : Nat) : Int :=
  if c < '0'.toNat then -1
  else if c ≤ '9'.toNat then (c : Int) - '0'.toNat
  else if c < 'A'.toNat then -1
  else if c ≤ 'F'.toNat then (c : Int) - 'A'.toNat + 10
  else if c < 'a'.toNat then -1
  else if c ≤ 'f'.toNat then (c : Int) - 'a'.toNat + 10
  else -1

/-- The source's `enum {MODE_HEX,MODE_TXT,MODE_TXT_ESC} parse_mode`. -/
inductive ParseMode
  | MODE_HEX
  | MODE_TXT
  | MODE_TXT_ESC
  deriving DecidableEq, Repr

/-- What the parsing loop of `main` leaves behind. -/
inductive ParseExit
  /-- The loop ran into `return 2` after "invalid hex string!". -/
  | invalid_hex
  /-- The loop condition became false with `h` pointing at `rest`, the arrays
  `value` and `mask` holding `len = value.length` cells. -/
  | stopped (rest : List Nat) (value mask : List Nat)
  deriving DecidableEq, Repr

/-- The `while (*h && (parse_mode != MODE_HEX || h[1]) && len < MAX_PATTERN)`
loop of `main`.  `h` is the list of the characters from the pointer `h` on;
`value` and `mask` are the cells written so far, `len` being their number. -/
def parse_loop : List Nat → ParseMode → List Nat → List Nat → ParseExit
  | [], _, value, mask => .stopped [] value mask
  | h0 :: t, parse_mode, value, mask =>
    -- h[1], the NUL terminator when h[0] is the last character
    let h1 := t.headD 0
    if h0 = 0 ∨ (parse_mode = .MODE_HEX ∧ h1 = 0) ∨ ¬ value.length < MAX_PATTERN then
      .stopped (h0 :: t) value mask
    else
      let on_quote : Bool := h0 = '"'.toNat
      let on_esc : Bool := h0 = '\\'.toNat
      match parse_mode with
      | .MODE_TXT =>
        if on_quote then parse_loop t .MODE_HEX value mask
        else if on_esc then parse_loop t .MODE_TXT_ESC value mask
        else parse_loop t .MODE_TXT (value ++ [h0 % 256]) (mask ++ [0xff])
      | .MODE_TXT_ESC =>
        parse_loop t .MODE_TXT (value ++ [h0 % 256]) (mask ++ [0xff])
      | .MODE_HEX =>
        if on_quote then parse_loop t .MODE_TXT value mask
        else
          match t with
          | [] => .stopped (h0 :: t) value mask
          | c1 :: t2 =>
            if h0 = '?'.toNat ∧ c1 = '?'.toNat then
              parse_loop t2 .MODE_HEX (value ++ [0]) (mask ++ [0])
            else if h0 = ' '.toNat then
              parse_loop (c1 :: t2) .MODE_HEX value mask
            else
              let v0 := ascii2hex h0
              let v1 := ascii2hex c1
              if v0 = -1 ∨ v1 = -1 then .invalid_hex
              else
                parse_loop t2 .MODE_HEX
                  (value ++ [((v0.toNat <<< 4) ||| v1.toNat) % 256]) (mask ++ [0xFF])

/-- A compiled pattern: the first `len` cells of `value` and `mask`. -/
structure Pattern where
  value : List Nat
  mask : List Nat
  len : Nat
  deriving DecidableEq, Repr

/-- The two diagnostics with which `main` gives up on a pattern (`return 2`):
both are the spec's `InvalidPattern`. -/
inductive PatternError
  /-- The diagnostic "invalid hex string!". -/
  | invalid_hex_string
  /-- The diagnostic "invalid/empty search string". -/
  | invalid_or_empty
  deriving DecidableEq, Repr

/-- The outcome of compiling a pattern expression. -/
inductive CompileResult
  | ok (p : Pattern)
  | error (e : PatternError)
  deriving DecidableEq, Repr

/-- Lines 458-530 of `main`: compile the pattern expression `argv[1]`. -/
def compile_pattern (h : List Nat) : CompileResult :=
  match parse_loop h .MODE_HEX [] [] with
  | .invalid_hex => .error .invalid_hex_string
  | .stopped rest value mask =>
    -- if (!len || *h)
    if value.length = 0 ∨ rest.headD 0 ≠ 0 then .error .invalid_or_empty
    else .ok ⟨value, mask, value.length⟩

/-- The bytes of a pattern expression written as a string (ASCII). -/
def cstr (s : String) : List Nat := s.toList.map Char.toNat


/-! ## Byte sources and standard output -/

/-- The options: the globals `bytes_before`, `bytes_after`, `skip_to`
(`uintmax_t`), `first_only` and `print_count` that `parse_opts` sets. -/
structure Config where
  bytes_before : Nat
  bytes_after : Nat
  skip_to : Nat
  first_only : Bool
  print_count : Bool
  deriving DecidableEq, Repr

/-- An open file descriptor on a finite byte source: the bytes `data` of the
source, the file position `pos` (on a pipe, the number of bytes consumed so
far), whether `lseek` works on it (a regular file) or not (a pipe), and
`sched`, the most each coming `read` call delivers (a pipe may deliver less
than what is asked for; the empty schedule is a source that always delivers
all it can).  Reads do not fail: I/O errors are outside this model. -/
structure Fd where
  data : List Nat
  pos : Nat
  seekable : Bool
  sched : List Nat
  deriving DecidableEq, Repr

/-- The source's `read(fd, buf, count)`: the bytes delivered (their number is
the return value `r`), which the caller stores at `buf`.  At least one byte is
delivered unless the source is exhausted or `count` is zero. -/
def read (fd : Fd) (count : Nat) : List Nat × Fd :=
  let rest := fd.data.drop fd.pos
  let r := min (min count rest.length) (max 1 (fd.sched.headD count))
  (rest.take r, { fd with pos := fd.pos + r, sched := fd.sched.tail })

/-- The source's `lseek(fd, offset, SEEK_CUR)`: fails (`-1`) on a pipe and
when the resulting position would be negative. -/
def lseek_cur (fd : Fd) (offset : Int) : Int × Fd :=
  if fd.seekable ∧ 0 ≤ (fd.pos : Int) + offset then
    ((fd.pos : Int) + offset, { fd with pos := ((fd.pos : Int) + offset).toNat })
  else (-1, fd)

/-- The source's `lseek(fd, offset, SEEK_SET)`: fails (`-1`) on a pipe and for
a negative offset. -/
def lseek_set (fd : Fd) (offset : Int) : Int × Fd :=
  if fd.seekable ∧ 0 ≤ offset then (offset, { fd with pos := offset.toNat })
  else (-1, fd)

/-- Conversion to a 32-bit `int` (two's complement). -/
def to_int32 (z : Int) : Int :=
  if z % 2 ^ 32 < 2 ^ 31 then z % 2 ^ 32 else z % 2 ^ 32 - 2 ^ 32

/-- Conversion to a 64-bit `off_t` (two's complement). -/
def to_off_t (z : Int) : Int :=
  if z % 2 ^ 64 < 2 ^ 63 then z % 2 ^ 64 else z % 2 ^ 64 - 2 ^ 64

/-- What the program writes to standard output. -/
inductive Out
  /-- The source's `printf("%s: %08jx\n", filename, file_offset)`, the offset
  as the `uintmax_t` that `%jx` prints -/
  | match_line (filename : String) (file_offset : Nat)
  /-- The source's `print_char(c)` -/
  | context_char (c : Nat)
  /-- The source's `putchar('\n')` at the end of `dump_context` -/
  | context_end
  /-- The source's `printf("%s count: %d\n", filename, count)` -/
  | count_line (filename : String) (count : Int)
  deriving DecidableEq, Repr

/-- The source's `isprint(c)` in the C locale. -/
def isprint (c : Nat) : Bool := 0x20 ≤ c ∧ c ≤ 0x7e

/-- The digits of `n` in lowercase hexadecimal, zero-padded to `width`. -/
def hex_padded (width n : Nat) : List Char :=
  let ds := Nat.toDigits 16 n
  List.replicate (width - ds.length) '0' ++ ds

/-- The source's `void print_char(unsigned char c)`: the characters written. -/
def print_char (c : Nat) : List Char :=
  if isprint c then [Char.ofNat c]
  else ['\\', 'x'] ++ hex_padded 2 c

/-- The text of an output event. -/
def Out.text : Out → List Char
  | .match_line filename file_offset =>
    filename.toList ++ [':', ' '] ++ hex_padded 8 file_offset ++ ['\n']
  | .context_char c => print_char c
  | .context_end => ['\n']
  | .count_line filename count =>
    filename.toList ++ " count: ".toList ++ (toString count).toList ++ ['\n']

/-- How a call can end other than by returning: `die(status, ...)`, which is
`exit(status)`; the status of `die(errno, ...)` is not modelled. -/
inductive Died
  | status (n : Nat)
  | errno
  deriving DecidableEq, Repr

/-! ## `skip` -/

/-- The `while (n > 0)` loop of `skip`, "skip forward the hard way".
`none`: the fuel ran out. -/
def skip_loop : Nat → Fd → Int → Int → Option (Int × Fd)
  | fuel, fd, result, n =>
    if n > 0 then
      match fuel with
      | 0 => none
      | fuel + 1 =>
        let (bytes, fd1) := read fd (min n.toNat BUFFER_SIZE)
        let r : Int := bytes.length
        if r < 1 then some (result, fd1)
        else skip_loop fuel fd1 (result + r) (n - r)
    else some (result, fd)

/-- The source's `off_t skip(int fd, off_t current, off_t n)`. -/
def skip (fd : Fd) (current : Int) (n : Int) : Option (Int × Fd) :=
  let (result, fd1) := lseek_cur fd n
  if result = -1 then
    if n < 0 then some (-1, fd1)
    else skip_loop n.toNat fd1 current n
  else some (result, fd1)

/-! ## `dump_context` -/

/-- How `dump_context` ends: the descriptor, what was printed, and whether it
returned or died. -/
structure Dump where
  fd : Fd
  out : List Out
  died : Option Died
  deriving DecidableEq, Repr

/-- The `for (;bytes_to_read;)` loop of `dump_context`.  `none`: the fuel ran
out. -/
def dump_loop : Nat → Fd → Int → List Out → Option Dump
  | fuel, fd, bytes_to_read, out =>
    if bytes_to_read = 0 then some ⟨fd, out, none⟩
    else
      match fuel with
      | 0 => none
      | fuel + 1 =>
        -- bytes_to_read > sizeof(buf) compares as size_t
        let read_chunk : Int :=
          if bytes_to_read % 2 ^ 64 > BUFFER_SIZE then BUFFER_SIZE else bytes_to_read
        let (bytes, fd1) := read fd read_chunk.toNat
        if bytes_to_read < 0 then some ⟨fd1, out, some .errno⟩
        else
          dump_loop fuel fd1 (bytes_to_read - read_chunk)
            (out ++ bytes.map Out.context_char)

/-- The source's `void dump_context(int fd, unsigned long long pos)`. -/
def dump_context (cfg : Config) (fd : Fd) (pos : Nat) : Option Dump :=
  let (save_pos, fd1) := lseek_cur fd 0
  if save_pos = -1 then some ⟨fd1, [], none⟩
  else
    let start : Int := to_off_t ((pos : Int) - cfg.bytes_before)
    let bytes_to_read : Int := to_int32 (cfg.bytes_before + cfg.bytes_after)
    let (r, fd2) := lseek_set fd1 start
    if r = -1 then some ⟨fd2, [], none⟩
    else
      match dump_loop (cfg.bytes_before + cfg.bytes_after) fd2 bytes_to_read [] with
      | none => none
      | some d =>
        match d.died with
        | some e => some ⟨d.fd, d.out, some e⟩
        | none =>
          let (r2, fd3) := lseek_set d.fd save_pos
          if r2 = -1 then some ⟨fd3, d.out ++ [.context_end], some .errno⟩
          else some ⟨fd3, d.out ++ [.context_end], none⟩

/-! ## `searchfile` -/

/-- Storing the bytes a `read` delivered at `buf + i`. -/
def store : List Nat → Nat → List Nat → List Nat
  | buf, _, [] => buf
  | buf, i, b :: bs => store (buf.set i b) (i + 1) bs

/-- The source's `memmove(buf, readp, n)`, with `readp` the index `readp - buf`. -/
def memmove (buf : List Nat) (readp n : Nat) : List Nat :=
  store buf 0 ((buf.drop readp).take n)

/-- The loop `for (i = 0; i < len; ++i) if ((readp[i] & mask[i]) != value[i]) break;`
entered with `i` and `k = len - i` cells to go: the final `i`. -/
def compare_loop (buf : List Nat) (readp : Nat) (value mask : List Nat) : Nat → Nat → Nat
  | 0, i => i
  | k + 1, i =>
    if (buf.getD (readp + i) 0 &&& mask.getD i 0) ≠ value.getD i 0 then i
    else compare_loop buf readp value mask k (i + 1)

/-- How `searchfile` ends. -/
inductive Outcome
  | returned (result : Int)
  | died (d : Died)
  deriving DecidableEq, Repr

/-- The end of a call of `searchfile`: how it ended, the descriptor and what
was written to standard output. -/
structure SearchResult where
  outcome : Outcome
  fd : Fd
  out : List Out
  deriving DecidableEq, Repr

/-- The priming loop `while (primed < lenm1)` of `searchfile`: `some (ok, buf, fd)`
with `ok = false` for the `return -1` on a source that ends early.  `none`:
the fuel ran out. -/
def prime_loop (lenm1 readp : Nat) : Nat → Fd → List Nat → Nat → Option (Bool × List Nat × Fd)
  | fuel, fd, buf, primed =>
    if primed < lenm1 then
      match fuel with
      | 0 => none
      | fuel + 1 =>
        let (bytes, fd1) := read fd (lenm1 - primed)
        let r := bytes.length
        if r < 1 then some (false, buf, fd1)
        else prime_loop lenm1 readp fuel fd1 (store buf (readp + primed) bytes) (primed + r)
    else some (true, buf, fd)

/-- The variables of `searchfile` that its main loop changes. -/
structure Scan where
  fd : Fd
  buf : List Nat
  readp : Nat
  file_offset : Int
  count : Int
  out : List Out
  deriving DecidableEq, Repr

/-- One turn of the `while (1)` loop of `searchfile`. -/
inductive Turn
  /-- The turn reached the end of the loop body. -/
  | next (s : Scan)
  /-- The turn left the loop by `break`, with `result`. -/
  | done (result : Int) (s : Scan)
  /-- The turn ended in `die`. -/
  | died (d : Died) (s : Scan)
  /-- The fuel of an inner loop ran out. -/
  | stuck
  deriving DecidableEq, Repr

/-- The block `++count; if (!print_count) { printf(...); if (bytes_before ||
bytes_after) dump_context(fd, file_offset); }` that `searchfile` runs on a
match, short of the `break`: the variables after it, and whether
`dump_context` died.  `none`: the fuel of a loop ran out. -/
def on_match (cfg : Config) (filename : String) (s : Scan) : Option (Scan × Option Died) :=
  let s2 : Scan := { s with count := to_int32 (s.count + 1) }
  if ¬ cfg.print_count then
    -- %jx and the parameter `unsigned long long pos` take the offset modulo 2^64
    let pos := (s2.file_offset % 2 ^ 64).toNat
    let s3 : Scan := { s2 with out := s2.out ++ [.match_line filename pos] }
    if cfg.bytes_before ≠ 0 ∨ cfg.bytes_after ≠ 0 then
      match dump_context cfg s3.fd pos with
      | none => none
      | some d => some ({ s3 with fd := d.fd, out := s3.out ++ d.out }, d.died)
    else some (s3, none)
  else some (s2, none)

/-- The end of the loop body of `searchfile`: `++readp; ++file_offset;` and
the shift of the buffer `if ((readp+lenm1) >= endp)`. -/
def advance (len : Nat) (s : Scan) : Scan :=
  let lenm1 := len - 1
  let readp := s.readp + 1
  let file_offset := s.file_offset + 1
  if readp + lenm1 ≥ BUFFER_SIZE then
    { s with buf := memmove s.buf readp lenm1, readp := 0, file_offset := file_offset }
  else { s with readp := readp, file_offset := file_offset }

/-- The body of the `while (1)` loop of `searchfile`. -/
def search_turn (cfg : Config) (filename : String) (value mask : List Nat) (len : Nat)
    (s : Scan) : Turn :=
  let lenm1 := len - 1
  let (bytes, fd1) := read s.fd 1
  if bytes.length ≠ 1 then .done (-1) { s with fd := fd1 }
  else
    let buf := store s.buf (s.readp + lenm1) bytes
    let i := compare_loop buf s.readp value mask len 0
    let s1 : Scan := { s with fd := fd1, buf := buf }
    let hit : Option (Scan × Option Died) :=
      if i = len then on_match cfg filename s1 else some (s1, none)
    match hit with
    | none => .stuck
    | some (s4, some e) => .died e s4
    | some (s4, none) =>
      if i = len ∧ cfg.first_only then .done 0 s4
      else .next (advance len s4)

/-- What follows the `while (1)` loop of `searchfile`: the count line and
`return result`. -/
def search_end (cfg : Config) (filename : String) (result : Int) (s : Scan) : SearchResult :=
  if cfg.print_count then
    ⟨.returned result, s.fd, s.out ++ [.count_line filename s.count]⟩
  else ⟨.returned result, s.fd, s.out⟩

/-- The `while (1)` loop of `searchfile` and what follows it.  `none`: the
fuel ran out. -/
def search_loop (cfg : Config) (filename : String) (value mask : List Nat) (len : Nat) :
    Nat → Scan → Option SearchResult
  | 0, _ => none
  | fuel + 1, s =>
    match search_turn cfg filename value mask len s with
    | .next s1 => search_loop cfg filename value mask len fuel s1
    | .done result s1 => some (search_end cfg filename result s1)
    | .died d s1 => some ⟨.died d, s1.fd, s1.out⟩
    | .stuck => none

/-- The source's `int searchfile(const char *filename, int fd, const unsigned char *value,
const unsigned char *mask, int len)`, for `len ≥ 1`.  The buffer starts out
as zeros (in C it is uninitialised; no cell is read before it is written).
`file_offset` is an `off_t`, not wrapped here: it stays below 2^63 on every
source whose size is an `off_t`.  `none`: the fuel of a loop ran out. -/
def searchfile (cfg : Config) (filename : String) (fd : Fd) (value mask : List Nat)
    (len : Nat) : Option SearchResult :=
  let buf := List.replicate BUFFER_SIZE 0
  let lenm1 := len - 1
  let readp := 0
  let file_offset : Int := 0
  -- if (skip_to > 0) file_offset = skip(fd, file_offset, skip_to)
  let skipped : Option (Int × Fd) :=
    if cfg.skip_to > 0 then skip fd file_offset (to_off_t cfg.skip_to)
    else some (file_offset, fd)
  match skipped with
  | none => none
  | some (file_offset, fd1) =>
    -- file_offset != skip_to compares as uintmax_t
    if cfg.skip_to > 0 ∧ file_offset % 2 ^ 64 ≠ (cfg.skip_to : Int) % 2 ^ 64 then
      some ⟨.died (.status 1), fd1, []⟩
    else
      match prime_loop lenm1 readp lenm1 fd1 buf 0 with
      | none => none
      | some (false, _, fd2) => some ⟨.returned (-1), fd2, []⟩
      | some (true, buf1, fd2) =>
        search_loop cfg filename value mask len (fd2.data.length + 1)
          ⟨fd2, buf1, readp, file_offset, 0, []⟩

/-! ## `recurse` and the scanning part of `main` -/

/-- What `recurse` finds at a path. -/
inductive Node
  /-- The source's `stat` fails. -/
  | absent
  /-- Not a directory, and `open` fails. -/
  | unreadable
  /-- Not a directory, and `open` gives a descriptor. -/
  | regular (fd : Fd)
  /-- A directory that `opendir` cannot open. -/
  | closed_directory
  /-- A directory with its entries other than "." and "..", in the order
  `readdir` gives them. -/
  | directory (entries : List (String × Node))

/-- How `recurse` and the scanning part of `main` end: the `result`, or the
death of the process, and what was written to standard output. -/
structure Walk where
  result : Except Died Int
  out : List Out

mutual
/-- The source's `int recurse(const char *path, const unsigned char *value,
const unsigned char *mask, int len)`.  `none`: the fuel of a loop ran out. -/
def recurse (cfg : Config) (value mask : List Nat) (len : Nat) : String → Node → Option Walk
  | _, .absent => some ⟨.ok 0, []⟩
  | _, .unreadable => some ⟨.ok 0, []⟩
  | path, .regular fd =>
    match searchfile cfg path fd value mask len with
    | none => none
    | some ⟨.returned result, _, out⟩ => some ⟨.ok result, out⟩
    | some ⟨.died d, _, out⟩ => some ⟨.error d, out⟩
  | _, .closed_directory => some ⟨.error (.status 3), []⟩
  | path, .directory entries => recurse_entries cfg value mask len path entries 0 []
/-- The `while ((d = readdir(dir)))` loop of `recurse`. -/
def recurse_entries (cfg : Config) (value mask : List Nat) (len : Nat) (path : String) :
    List (String × Node) → Int → List Out → Option Walk
  | [], result, out => some ⟨.ok result, out⟩
  | (d_name, node) :: rest, result, out =>
    match recurse cfg value mask len (path ++ "/" ++ d_name) node with
    | none => none
    | some ⟨.error d, out1⟩ => some ⟨.error d, out ++ out1⟩
    | some ⟨.ok r, out1⟩ =>
      let result := result + r
      if result ≠ 0 ∧ cfg.first_only then some ⟨.ok result, out ++ out1⟩
      else recurse_entries cfg value mask len path rest result (out ++ out1)
end

/-- The loop `while (c < argc)` of `main` over the paths `argv[2..]`. -/
def main_loop (cfg : Config) (value mask : List Nat) (len : Nat) :
    List (String × Node) → Int → List Out → Option Walk
  | [], result, out => some ⟨.ok result, out⟩
  | (path, node) :: rest, result, out =>
    match recurse cfg value mask len path node with
    | none => none
    | some ⟨.error d, out1⟩ => some ⟨.error d, out ++ out1⟩
    | some ⟨.ok r, out1⟩ =>
      let result := result + r
      if result ≠ 0 ∧ cfg.first_only then some ⟨.ok result, out ++ out1⟩
      else main_loop cfg value mask len rest result (out ++ out1)

/-- The exit status of the process. -/
inductive ExitStatus
  | code (n : Nat)
  | errno
  deriving DecidableEq, Repr

/-- The end of a run of `main`. -/
structure Run where
  status : ExitStatus
  out : List Out
  deriving DecidableEq, Repr

/-- The source's `int main(int argc, char **argv)` after `parse_opts`, given the options
`cfg`, the pattern expression `argv[1]`, standard input and what lies at the
paths `argv[2..]`.  `none`: the fuel of a loop ran out. -/
def main (cfg : Config) (h : List Nat) (stdin : Fd) (paths : List (String × Node)) :
    Option Run :=
  match compile_pattern h with
  | .error _ => some ⟨.code 2, []⟩
  | .ok p =>
    let walk : Option Walk :=
      if paths.length = 0 then
        match searchfile cfg "stdin" stdin p.value p.mask p.len with
        | none => none
        | some ⟨.returned result, _, out⟩ => some ⟨.ok result, out⟩
        | some ⟨.died d, _, out⟩ => some ⟨.error d, out⟩
      else main_loop cfg p.value p.mask p.len paths 0 []
    match walk with
    | none => none
    | some ⟨.error (.status n), out⟩ => some ⟨.code n, out⟩
    | some ⟨.error .errno, out⟩ => some ⟨.errno, out⟩
    | some ⟨.ok result, out⟩ => some ⟨.code (if result = 0 then 3 else 0), out⟩

/-- A fresh descriptor on a regular file with the bytes `data`. -/
def Fd.file (data : List Nat) : Fd := ⟨data, 0, true, []⟩

/-- A fresh descriptor on a pipe delivering the bytes `data`, each `read`
delivering at most what `sched` says. -/
def Fd.pipe (data : List Nat) (sched : List Nat) : Fd := ⟨data, 0, false, sched⟩

/-- The offsets of the match lines in an output. -/
def match_offsets : List Out → List Nat
  | [] => []
  | .match_line _ o :: rest => o :: match_offsets rest
  | _ :: rest => match_offsets rest


/-! ## What the claims speak of -/

/-- The window of the source `S` at offset `o` matches the pattern:
`(S[o+i] & mask[i]) == value[i]` for all `i < len`. -/
def window_matches (S value mask : List Nat) (len o : Nat) : Prop :=
  ∀ i, i < len → (S.getD (o + i) 0 &&& mask.getD i 0) = value.getD i 0

instance (S value mask : List Nat) (len o : Nat) :
    Decidable (window_matches S value mask len o) :=
  inferInstanceAs
    (Decidable (∀ i, i < len → (S.getD (o + i) 0 &&& mask.getD i 0) = value.getD i 0))

/-- The offsets `o` from `K` on with `o + len ≤ |S|` whose window matches,
in ascending order. -/
def matching_offsets (S value mask : List Nat) (len K : Nat) : List Nat :=
  (List.range' K (S.length + 1 - len - K)).filter
    (fun o => decide (window_matches S value mask len o))

/-- The invariant of the `while (1)` loop of `searchfile` at the head of the
loop, on the source `S` with the window at offset `o`: the descriptor is
`len - 1` bytes past `o`, and the buffer holds these bytes from `readp` on,
with room for one more. -/
structure Inv (S : List Nat) (len : Nat) (s : Scan) (o : Nat) : Prop where
  data : s.fd.data = S
  pos : s.fd.pos = o + (len - 1)
  off : s.file_offset = (o : Int)
  buflen : s.buf.length = BUFFER_SIZE
  room : s.readp + (len - 1) < BUFFER_SIZE
  window : ∀ j, j < len - 1 → s.buf.getD (s.readp + j) 0 = S.getD (o + j) 0

/-- The counter `count` after `k` more matches: `++count` on a 32-bit `int`. -/
def count_after (count : Int) : Nat → Int
  | 0 => count
  | k + 1 => count_after (to_int32 (count + 1)) k

/-- The options all off. -/
def Config.default : Config := ⟨0, 0, 0, false, false⟩

/-- The character of the hex digit `n < 16`, upper or lower case. -/
def hex_digit (upper : Bool) (n : Nat) : Nat :=
  if n < 10 then '0'.toNat + n
  else if upper then 'A'.toNat + (n - 10) else 'a'.toNat + (n - 10)

/-- The byte `b` written as two hex digits, high nibble first, each digit in
the case that `u` says. -/
def hex_pair (u : Bool × Bool) (b : Nat) : List Nat :=
  [hex_digit u.1 (b / 16), hex_digit u.2 (b % 16)]

/-- The pattern expression that writes each byte of `bs` as two hex digits. -/
def hex_expr : List (Bool × Bool) → List Nat → List Nat
  | u :: us, b :: bs => hex_pair u b ++ hex_expr us bs
  | _, _ => []

/-- A hex digit character: `0-9`, `A-F`, `a-f`. -/
def is_hex_digit (c : Nat) : Prop :=
  ('0'.toNat ≤ c ∧ c ≤ '9'.toNat) ∨ ('A'.toNat ≤ c ∧ c ≤ 'F'.toNat) ∨
    ('a'.toNat ≤ c ∧ c ≤ 'f'.toNat)

instance (c : Nat) : Decidable (is_hex_digit c) :=
  inferInstanceAs (Decidable (('0'.toNat ≤ c ∧ c ≤ '9'.toNat) ∨ ('A'.toNat ≤ c ∧ c ≤ 'F'.toNat) ∨
    ('a'.toNat ≤ c ∧ c ≤ 'f'.toNat)))

/-- A segment of a mixed-mode pattern expression. -/
inductive Segment
  /-- A double-quoted text span with the characters `cs`. -/
  | text (cs : List Nat)
  /-- The byte `b` as a pair of hex digits in the cases `u`. -/
  | hex (u : Bool × Bool) (b : Nat)
  /-- The wildcard `??`. -/
  | wildcard
  deriving DecidableEq, Repr

/-- The characters of a segment. -/
def Segment.expr : Segment → List Nat
  | .text cs => ['"'.toNat] ++ cs ++ ['"'.toNat]
  | .hex u b => hex_pair u b
  | .wildcard => ['?'.toNat, '?'.toNat]

/-- The cells a segment denotes, as (value, mask) pairs. -/
def Segment.cells : Segment → List (Nat × Nat)
  | .text cs => cs.map (fun c => (c, 0xFF))
  | .hex _ b => [(b, 0xFF)]
  | .wildcard => [(0x00, 0x00)]

/-- A well-formed segment: a text span holds characters (non-NUL bytes) other
than the double quote and the backslash, a hex pair writes a byte. -/
def Segment.wf : Segment → Prop
  | .text cs => ∀ c ∈ cs, 0 < c ∧ c < 256 ∧ c ≠ '"'.toNat ∧ c ≠ '\\'.toNat
  | .hex _ b => b < 256
  | .wildcard => True

instance : (s : Segment) → Decidable s.wf
  | .text cs =>
    inferInstanceAs (Decidable (∀ c ∈ cs, 0 < c ∧ c < 256 ∧ c ≠ '"'.toNat ∧ c ≠ '\\'.toNat))
  | .hex _ b => inferInstanceAs (Decidable (b < 256))
  | .wildcard => inferInstanceAs (Decidable True)

/-- The segment is a hex pair or `??`. -/
def Segment.is_hex_mode : Segment → Bool
  | .text _ => false
  | _ => true

/-- The expression that concatenates the segments. -/
def segments_expr (segs : List Segment) : List Nat := (segs.map Segment.expr).flatten

/-- The cells that the segments denote, in order. -/
def segments_cells (segs : List Segment) : List (Nat × Nat) := (segs.map Segment.cells).flatten

/-! ## More of what the claims speak of -/

/-- The cells `value`, `mask` are those of a well-formed pattern: as many
values as masks, each mask `0xFF` or `0x00`, the value `0x00` where the mask
is `0x00`. -/
def cells_wf (value mask : List Nat) : Prop :=
  value.length = mask.length ∧
    ∀ i, i < mask.length →
      mask.getD i 0 = 0xFF ∨ (mask.getD i 0 = 0x00 ∧ value.getD i 0 = 0x00)

/-- The pattern expression made of `L` repetitions of `??`. -/
def wildcard_expr (L : Nat) : List Nat :=
  (List.replicate L ['?'.toNat, '?'.toNat]).flatten

/-- The characters `p1` end at a HEX-mode cell boundary: having read them, the
parsing loop is at the head of a turn in HEX mode with some cells `value`,
`mask`, whatever characters follow. -/
def hex_boundary (p1 : List Nat) : Prop :=
  ∃ value mask, ∀ rest,
    parse_loop (p1 ++ rest) .MODE_HEX [] [] = parse_loop rest .MODE_HEX value mask

/-- The expression `p1 ++ p2` with `n` spaces put between `p1` and `p2`. -/
def insert_spaces (p1 : List Nat) (n : Nat) (p2 : List Nat) : List Nat :=
  p1 ++ List.replicate n ' '.toNat ++ p2

/-- The value of a lowercase hex digit character, `0` for any other
character. -/
def hex_digit_value (c : Char) : Nat :=
  if '0' ≤ c ∧ c ≤ '9' then c.toNat - '0'.toNat
  else if 'a' ≤ c ∧ c ≤ 'f' then c.toNat - 'a'.toNat + 10
  else 0

/-- A lowercase hex digit character: `0-9`, `a-f`. -/
def is_lower_hex (c : Char) : Prop := ('0' ≤ c ∧ c ≤ '9') ∨ ('a' ≤ c ∧ c ≤ 'f')

instance (c : Char) : Decidable (is_lower_hex c) :=
  inferInstanceAs (Decidable (('0' ≤ c ∧ c ≤ '9') ∨ ('a' ≤ c ∧ c ≤ 'f')))

/-- The number that a string of hex digits denotes, most significant digit
first. -/
def hex_value (cs : List Char) : Nat :=
  cs.foldl (fun acc c => 16 * acc + hex_digit_value c) 0

/-- The lowercase hex digit character of `n < 16`. -/
def lower_hex_char (n : Nat) : Char :=
  Char.ofNat (if n < 10 then '0'.toNat + n else 'a'.toNat + (n - 10))

/-- The rendering of a context byte that the claims describe: the byte itself
when it is printable (`0x20..0x7E`), else backslash, `x` and its two lowercase
hex digits. -/
def render_byte (c : Nat) : List Char :=
  if 0x20 ≤ c ∧ c ≤ 0x7E then [Char.ofNat c]
  else ['\\', 'x', lower_hex_char (c / 16), lower_hex_char (c % 16)]

/-- The characters that the output events put on standard output. -/
def render (out : List Out) : List Char := (out.map Out.text).flatten

/-- The states at the head of the `while (1)` loop of `searchfile` that the
loop visits when entered with `s0`: `s0`, and the state that a turn ending at
the end of the loop body leaves. -/
inductive Visits (cfg : Config) (filename : String) (value mask : List Nat) (len : Nat)
    (s0 : Scan) : Scan → Prop
  | start : Visits cfg filename value mask len s0 s0
  | turn (s s1 : Scan) : Visits cfg filename value mask len s0 s →
      search_turn cfg filename value mask len s = .next s1 →
      Visits cfg filename value mask len s0 s1

/-- The buffer at the head of the `while (1)` loop of `searchfile`: it has
`BUFFER_SIZE` cells, the window at `readp` has room for `len` cells, and its
first `len - 1` cells hold the `len - 1` bytes of the source before the file
position. -/
structure Window (len : Nat) (s : Scan) : Prop where
  buflen : s.buf.length = BUFFER_SIZE
  room : s.readp + (len - 1) < BUFFER_SIZE
  pos : len - 1 ≤ s.fd.pos
  recent : ∀ j, j < len - 1 →
    s.buf.getD (s.readp + j) 0 = s.fd.data.getD (s.fd.pos - (len - 1) + j) 0

/-! # Theorems -/

/-! ### `read`, `store`, `memmove`, `compare_loop` -/

theorem read_data (fd : Fd) (n : Nat) : (read fd n).2.data = fd.data := rfl

theorem read_seekable (fd : Fd) (n : Nat) : (read fd n).2.seekable = fd.seekable := rfl

theorem read_pos (fd : Fd) (n : Nat) : (read fd n).2.pos = fd.pos + (read fd n).1.length := by
  simp only [read, List.length_take, List.length_drop]
  congr 1
  omega

theorem read_bytes (fd : Fd) (n : Nat) :
    (read fd n).1 = (fd.data.drop fd.pos).take (read fd n).1.length := by
  simp only [read, List.length_take, List.length_drop]
  congr 1
  omega

theorem read_length_le (fd : Fd) (n : Nat) :
    (read fd n).1.length ≤ n ∧ fd.pos + (read fd n).1.length ≤ max fd.pos fd.data.length := by
  simp only [read, List.length_take, List.length_drop]
  omega

theorem read_length_pos (fd : Fd) (n : Nat) (hn : 0 < n) (hpos : fd.pos < fd.data.length) :
    0 < (read fd n).1.length := by
  simp only [read, List.length_take, List.length_drop]
  omega

theorem read_eof (fd : Fd) (n : Nat) (hpos : fd.data.length ≤ fd.pos) :
    (read fd n).1 = [] := by
  simp only [read, List.length_drop]
  have : fd.data.length - fd.pos = 0 := by omega
  simp [this]

theorem read_one (fd : Fd) (hpos : fd.pos < fd.data.length) :
    (read fd 1).1 = [fd.data.getD fd.pos 0] := by
  have h1 := read_bytes fd 1
  have h2 := (read_length_le fd 1).1
  have h3 := read_length_pos fd 1 (by omega) hpos
  have h4 : (read fd 1).1.length = 1 := by omega
  rw [h4] at h1
  rw [h1]
  rw [List.take_one, List.head?_drop]
  simp [List.getD_eq_getElem?_getD, List.getElem?_eq_getElem hpos]

theorem store_length (bs : List Nat) : ∀ (buf : List Nat) (i : Nat),
    (store buf i bs).length = buf.length := by
  induction bs with
  | nil => intro buf i; rfl
  | cons b bs ih => intro buf i; simp [store, ih]

theorem store_getD (bs : List Nat) : ∀ (buf : List Nat) (i j : Nat),
    i + bs.length ≤ buf.length →
    (store buf i bs).getD j 0 =
      if i ≤ j ∧ j < i + bs.length then bs.getD (j - i) 0 else buf.getD j 0 := by
  induction bs with
  | nil =>
    intro buf i j _
    have : ¬ (i ≤ j ∧ j < i) := by omega
    simp [store, this]
  | cons b bs ih =>
    intro buf i j hlen
    simp only [List.length_cons] at hlen
    rw [store, ih _ _ _ (by simp; omega)]
    by_cases h1 : i + 1 ≤ j ∧ j < i + 1 + bs.length
    · have h2 : i ≤ j ∧ j < i + (b :: bs).length := by simp; omega
      rw [if_pos h1, if_pos h2]
      have e : j - i = (j - (i + 1)) + 1 := by omega
      rw [e]
      simp [List.getD_eq_getElem?_getD]
    · rw [if_neg h1]
      by_cases h3 : i = j
      · subst h3
        have h2 : i ≤ i ∧ i < i + (b :: bs).length := by simp
        rw [if_pos h2]
        have h4 : i < buf.length := by omega
        simp [List.getD_eq_getElem?_getD, List.getElem?_set, h4]
      · have h2 : ¬ (i ≤ j ∧ j < i + (b :: bs).length) := by simp; omega
        rw [if_neg h2]
        simp [List.getD_eq_getElem?_getD, List.getElem?_set, h3]

theorem memmove_length (buf : List Nat) (readp n : Nat) :
    (memmove buf readp n).length = buf.length := store_length _ _ _

theorem memmove_getD (buf : List Nat) (readp n j : Nat) (h : readp + n ≤ buf.length)
    (hj : j < n) : (memmove buf readp n).getD j 0 = buf.getD (readp + j) 0 := by
  unfold memmove
  have hl : ((buf.drop readp).take n).length = n := by
    simp only [List.length_take, List.length_drop]; omega
  rw [store_getD _ _ _ _ (by rw [hl]; omega)]
  rw [if_pos (by rw [hl]; omega)]
  simp [List.getD_eq_getElem?_getD, List.getElem?_take, hj, List.getElem?_drop]

theorem compare_loop_le (buf : List Nat) (readp : Nat) (value mask : List Nat) (k : Nat) :
    ∀ i, compare_loop buf readp value mask k i ≤ i + k := by
  induction k with
  | zero => intro i; simp [compare_loop]
  | succ k ih =>
    intro i
    rw [compare_loop]
    split
    · omega
    · have := ih (i + 1); omega

theorem compare_loop_eq_iff (buf : List Nat) (readp : Nat) (value mask : List Nat) (k : Nat) :
    ∀ i, compare_loop buf readp value mask k i = i + k ↔
      ∀ j, i ≤ j → j < i + k → (buf.getD (readp + j) 0 &&& mask.getD j 0) = value.getD j 0 := by
  induction k with
  | zero =>
    intro i
    simp only [compare_loop, Nat.add_zero, true_iff]
    intro j h1 h2
    omega
  | succ k ih =>
    intro i
    rw [compare_loop]
    by_cases hc : (buf.getD (readp + i) 0 &&& mask.getD i 0) ≠ value.getD i 0
    · rw [if_pos hc]
      constructor
      · intro h; omega
      · intro h
        exact absurd (h i (le_refl _) (by omega)) hc
    · rw [if_neg hc, show i + (k + 1) = (i + 1) + k by omega, ih (i + 1)]
      rw [not_not] at hc
      constructor
      · intro h j h1 h2
        by_cases hj : j = i
        · subst hj; exact hc
        · exact h j (by omega) h2
      · intro h j h1 h2
        exact h j (by omega) h2

/-! ### Output and `dump_context` -/

theorem match_offsets_append (a b : List Out) :
    match_offsets (a ++ b) = match_offsets a ++ match_offsets b := by
  induction a with
  | nil => rfl
  | cons x a ih => cases x <;> simp [match_offsets, ih]

theorem match_offsets_context (bytes : List Nat) :
    match_offsets (bytes.map Out.context_char) = [] := by
  induction bytes with
  | nil => rfl
  | cons b bytes ih => simpa [match_offsets] using ih

/-- With a non-negative `bytes_to_read` the loop of `dump_context` ends
within its fuel, without dying, printing context characters only. -/
theorem dump_loop_spec (fuel : Nat) : ∀ (fd : Fd) (bytes_to_read : Int) (out : List Out),
    0 ≤ bytes_to_read → bytes_to_read.toNat ≤ fuel →
    ∃ d, dump_loop fuel fd bytes_to_read out = some d ∧ d.died = none ∧
      d.fd.data = fd.data ∧ d.fd.seekable = fd.seekable ∧
      match_offsets d.out = match_offsets out := by
  induction fuel with
  | zero =>
    intro fd btr out h0 hf
    have : btr = 0 := by omega
    subst this
    exact ⟨⟨fd, out, none⟩, by simp [dump_loop], rfl, rfl, rfl, rfl⟩
  | succ fuel ih =>
    intro fd btr out h0 hf
    by_cases hz : btr = 0
    · subst hz
      exact ⟨⟨fd, out, none⟩, by simp [dump_loop], rfl, rfl, rfl, rfl⟩
    · rw [dump_loop]
      simp only [hz, if_false]
      have hneg : ¬ btr < 0 := by omega
      simp only [hneg, if_false]
      set chunk : Int := if btr % 2 ^ 64 > (BUFFER_SIZE : Int) then (BUFFER_SIZE : Int) else btr
        with hchunk
      have hc1 : 0 < chunk ∧ chunk ≤ btr := by
        rw [hchunk]
        simp only [BUFFER_SIZE]
        split <;> omega
      obtain ⟨d, hd, h1, h2, h3, h4⟩ := ih (read fd chunk.toNat).2 (btr - chunk)
        (out ++ (read fd chunk.toNat).1.map Out.context_char) (by omega) (by omega)
      refine ⟨d, hd, h1, ?_, ?_, ?_⟩
      · rw [h2, read_data]
      · rw [h3, read_seekable]
      · rw [h4, match_offsets_append, match_offsets_context, List.append_nil]

theorem lseek_cur_zero (fd : Fd) (hs : fd.seekable = true) :
    lseek_cur fd 0 = ((fd.pos : Int), fd) := by
  cases fd
  simp_all [lseek_cur]

theorem lseek_cur_pipe (fd : Fd) (n : Int) (hs : ¬ fd.seekable = true) :
    lseek_cur fd n = (-1, fd) := by
  simp [lseek_cur, hs]

theorem lseek_set_ok (fd : Fd) (n : Int) (hs : fd.seekable = true) (hn : 0 ≤ n) :
    lseek_set fd n = (n, { fd with pos := n.toNat }) := by
  simp [lseek_set, hs, hn]

theorem lseek_set_neg (fd : Fd) (n : Int) (hn : ¬ 0 ≤ n) :
    lseek_set fd n = (-1, fd) := by
  simp [lseek_set, hn]

theorem to_int32_le (z : Int) (h : 0 ≤ z) : to_int32 z ≤ z := by
  unfold to_int32
  split <;> omega

theorem dump_context_eq (cfg : Config) (fd : Fd) (pos : Nat) :
    dump_context cfg fd pos =
      if (lseek_cur fd 0).1 = -1 then some ⟨(lseek_cur fd 0).2, [], none⟩
      else if (lseek_set (lseek_cur fd 0).2 (to_off_t ((pos : Int) - cfg.bytes_before))).1 = -1 then
        some ⟨(lseek_set (lseek_cur fd 0).2 (to_off_t ((pos : Int) - cfg.bytes_before))).2, [], none⟩
      else
        match dump_loop (cfg.bytes_before + cfg.bytes_after)
            (lseek_set (lseek_cur fd 0).2 (to_off_t ((pos : Int) - cfg.bytes_before))).2
            (to_int32 (cfg.bytes_before + cfg.bytes_after)) [] with
        | none => none
        | some d =>
          match d.died with
          | some e => some ⟨d.fd, d.out, some e⟩
          | none =>
            if (lseek_set d.fd (lseek_cur fd 0).1).1 = -1 then
              some ⟨(lseek_set d.fd (lseek_cur fd 0).1).2, d.out ++ [.context_end], some .errno⟩
            else some ⟨(lseek_set d.fd (lseek_cur fd 0).1).2, d.out ++ [.context_end], none⟩ := by
  rfl


/-- When the `int` sum of the context widths is not negative, `dump_context`
returns, with the descriptor where it was, having printed no match line. -/
theorem dump_context_spec (cfg : Config) (fd : Fd) (pos : Nat)
    (hctx : 0 ≤ to_int32 (cfg.bytes_before + cfg.bytes_after)) :
    ∃ d, dump_context cfg fd pos = some d ∧ d.died = none ∧
      d.fd.data = fd.data ∧ d.fd.pos = fd.pos ∧ d.fd.seekable = fd.seekable ∧
      match_offsets d.out = [] := by
  rw [dump_context_eq]
  by_cases hs : fd.seekable = true
  · rw [lseek_cur_zero fd hs]
    have hne : ¬ ((fd.pos : Int) = -1) := by omega
    rw [if_neg hne]
    by_cases hst : 0 ≤ to_off_t ((pos : Int) - cfg.bytes_before)
    · rw [lseek_set_ok fd _ hs hst]
      have hne2 : ¬ (to_off_t ((pos : Int) - cfg.bytes_before) = -1) := by omega
      rw [if_neg hne2]
      have hle := to_int32_le (cfg.bytes_before + cfg.bytes_after) (by omega)
      obtain ⟨d, hd, h1, h2, h3, h4⟩ := dump_loop_spec
        (cfg.bytes_before + cfg.bytes_after)
        { fd with pos := (to_off_t ((pos : Int) - cfg.bytes_before)).toNat }
        (to_int32 (cfg.bytes_before + cfg.bytes_after)) [] hctx (by omega)
      rw [hd]
      have hsd : d.fd.seekable = true := by rw [h3]; exact hs
      simp only [h1]
      rw [lseek_set_ok d.fd _ hsd (by omega), if_neg hne]
      refine ⟨_, rfl, rfl, h2, ?_, h3, ?_⟩
      · simp
      · rw [match_offsets_append, h4]
        rfl
    · rw [lseek_set_neg fd _ hst, if_pos rfl]
      exact ⟨_, rfl, rfl, rfl, rfl, rfl, rfl⟩
  · rw [lseek_cur_pipe fd 0 hs, if_pos rfl]
    exact ⟨_, rfl, rfl, rfl, rfl, rfl, rfl⟩

theorem search_turn_eq (cfg : Config) (filename : String) (value mask : List Nat) (len : Nat)
    (s : Scan) :
    search_turn cfg filename value mask len s =
      if (read s.fd 1).1.length ≠ 1 then .done (-1) { s with fd := (read s.fd 1).2 }
      else
        match (if compare_loop (store s.buf (s.readp + (len - 1)) (read s.fd 1).1) s.readp
              value mask len 0 = len
            then on_match cfg filename
              { s with fd := (read s.fd 1).2,
                       buf := store s.buf (s.readp + (len - 1)) (read s.fd 1).1 }
            else some ({ s with
              fd := (read s.fd 1).2,
              buf := store s.buf (s.readp + (len - 1)) (read s.fd 1).1 }, none)) with
        | none => .stuck
        | some (s4, some e) => .died e s4
        | some (s4, none) =>
          if compare_loop (store s.buf (s.readp + (len - 1)) (read s.fd 1).1) s.readp
              value mask len 0 = len ∧ cfg.first_only then .done 0 s4
          else .next (advance len s4) := by
  rfl

theorem on_match_eq (cfg : Config) (filename : String) (s : Scan) :
    on_match cfg filename s =
      if ¬ cfg.print_count then
        if cfg.bytes_before ≠ 0 ∨ cfg.bytes_after ≠ 0 then
          match dump_context cfg s.fd (s.file_offset % 2 ^ 64).toNat with
          | none => none
          | some d =>
            some ({ s with
              count := to_int32 (s.count + 1),
              fd := d.fd,
              out := s.out ++ [.match_line filename (s.file_offset % 2 ^ 64).toNat] ++ d.out },
              d.died)
        else
          some ({ s with
            count := to_int32 (s.count + 1),
            out := s.out ++ [.match_line filename (s.file_offset % 2 ^ 64).toNat] }, none)
      else some ({ s with count := to_int32 (s.count + 1) }, none) := by
  rfl


/-! ### One turn of the main loop -/

theorem advance_inv (S : List Nat) (len : Nat) (s : Scan) (o : Nat)
    (h1 : 1 ≤ len) (h512 : len ≤ 512)
    (hdata : s.fd.data = S) (hpos : s.fd.pos = o + len) (hoff : s.file_offset = (o : Int))
    (hbuf : s.buf.length = BUFFER_SIZE) (hroom : s.readp + (len - 1) < BUFFER_SIZE)
    (hwin : ∀ j, j < len → s.buf.getD (s.readp + j) 0 = S.getD (o + j) 0) :
    Inv S len (advance len s) (o + 1) ∧ (advance len s).out = s.out ∧
      (advance len s).count = s.count ∧ (advance len s).fd = s.fd := by
  unfold advance
  have hB : BUFFER_SIZE = 1024 := rfl
  rw [hB] at hroom
  rw [hB]
  by_cases hshift : s.readp + 1 + (len - 1) ≥ 1024
  · rw [if_pos hshift]
    refine ⟨⟨hdata, ?_, ?_, ?_, ?_, ?_⟩, rfl, rfl, rfl⟩
    · show s.fd.pos = _
      omega
    · show s.file_offset + 1 = _
      rw [hoff]; push_cast; rfl
    · show (memmove s.buf (s.readp + 1) (len - 1)).length = _
      rw [memmove_length, hbuf]
    · show 0 + (len - 1) < BUFFER_SIZE
      rw [hB]; omega
    · intro j hj
      show (memmove s.buf (s.readp + 1) (len - 1)).getD (0 + j) 0 = _
      rw [Nat.zero_add, memmove_getD _ _ _ _ (by rw [hbuf, hB]; omega) hj]
      have := hwin (j + 1) (by omega)
      rw [show s.readp + 1 + j = s.readp + (j + 1) by omega,
        show o + 1 + j = o + (j + 1) by omega]
      exact this
  · rw [if_neg hshift]
    refine ⟨⟨hdata, ?_, ?_, hbuf, ?_, ?_⟩, rfl, rfl, rfl⟩
    · show s.fd.pos = _
      omega
    · show s.file_offset + 1 = _
      rw [hoff]; push_cast; rfl
    · show s.readp + 1 + (len - 1) < BUFFER_SIZE
      rw [hB]; omega
    · intro j hj
      show s.buf.getD (s.readp + 1 + j) 0 = _
      have := hwin (j + 1) (by omega)
      rw [show s.readp + 1 + j = s.readp + (j + 1) by omega,
        show o + 1 + j = o + (j + 1) by omega]
      exact this

/-- With the next byte of the source stored after them, the `len - 1` bytes of
the invariant make the window at `o`. -/
theorem window_after_store (S : List Nat) (len : Nat) (s : Scan) (o : Nat)
    (hinv : Inv S len s o) (h1 : 1 ≤ len) :
    ∀ j, j < len →
      (store s.buf (s.readp + (len - 1)) [S.getD (o + (len - 1)) 0]).getD (s.readp + j) 0 =
        S.getD (o + j) 0 := by
  intro j hj
  have hroom := hinv.room
  rw [store_getD _ _ _ _ (by rw [hinv.buflen]; simp; omega)]
  by_cases hlast : j = len - 1
  · subst hlast
    rw [if_pos (by simp)]
    simp
  · rw [if_neg (by simp; omega)]
    exact hinv.window j (by omega)

theorem on_match_spec (cfg : Config) (filename : String) (s : Scan) (o : Nat)
    (hoff : s.file_offset = (o : Int)) (ho : o < 2 ^ 63)
    (hctx : 0 ≤ to_int32 (cfg.bytes_before + cfg.bytes_after)) :
    ∃ s4, on_match cfg filename s = some (s4, none) ∧
      s4.fd.data = s.fd.data ∧ s4.fd.pos = s.fd.pos ∧ s4.buf = s.buf ∧ s4.readp = s.readp ∧
      s4.file_offset = s.file_offset ∧ s4.count = to_int32 (s.count + 1) ∧
      match_offsets s4.out = match_offsets s.out ++ (if cfg.print_count then [] else [o]) ∧
      (cfg.print_count = true → s4.out = s.out) := by
  have hpos : (s.file_offset % 2 ^ 64).toNat = o := by
    rw [hoff]; omega
  rw [on_match_eq, hpos]
  by_cases hpc : cfg.print_count = true
  · rw [if_neg (by simp [hpc])]
    exact ⟨_, rfl, rfl, rfl, rfl, rfl, rfl, rfl, by simp [hpc], fun _ => rfl⟩
  · rw [if_pos hpc]
    by_cases hc : cfg.bytes_before ≠ 0 ∨ cfg.bytes_after ≠ 0
    · rw [if_pos hc]
      obtain ⟨d, hd, h1, h2, h3, _, h5⟩ := dump_context_spec cfg s.fd o hctx
      rw [hd]
      simp only [h1]
      refine ⟨_, rfl, h2, h3, rfl, rfl, rfl, rfl, ?_, fun h => absurd h hpc⟩
      simp [match_offsets_append, h5, match_offsets, hpc]
    · rw [if_neg hc]
      refine ⟨_, rfl, rfl, rfl, rfl, rfl, rfl, rfl, ?_, fun h => absurd h hpc⟩
      simp [match_offsets_append, match_offsets, hpc]

theorem search_turn_eof (cfg : Config) (filename : String) (value mask : List Nat) (len : Nat)
    (s : Scan) (h : s.fd.data.length ≤ s.fd.pos) :
    search_turn cfg filename value mask len s = .done (-1) { s with fd := (read s.fd 1).2 } := by
  rw [search_turn_eq, read_eof _ _ h]
  rfl

theorem search_turn_step (cfg : Config) (filename : String) (S value mask : List Nat)
    (len : Nat) (s : Scan) (o : Nat) (hinv : Inv S len s o) (h1 : 1 ≤ len)
    (hmore : o + len ≤ S.length) (ho : o < 2 ^ 63)
    (hctx : 0 ≤ to_int32 (cfg.bytes_before + cfg.bytes_after)) :
    ∃ s4, s4.fd.data = S ∧ s4.fd.pos = o + len ∧ s4.file_offset = (o : Int) ∧
      s4.buf.length = BUFFER_SIZE ∧ s4.readp + (len - 1) < BUFFER_SIZE ∧
      (∀ j, j < len → s4.buf.getD (s4.readp + j) 0 = S.getD (o + j) 0) ∧
      s4.count = (if window_matches S value mask len o then to_int32 (s.count + 1)
        else s.count) ∧
      match_offsets s4.out = match_offsets s.out ++
        (if window_matches S value mask len o ∧ ¬ cfg.print_count = true then [o] else []) ∧
      (cfg.print_count = true → s4.out = s.out) ∧
      search_turn cfg filename value mask len s =
        if window_matches S value mask len o ∧ cfg.first_only = true then .done 0 s4
        else .next (advance len s4) := by
  have hp : s.fd.pos < s.fd.data.length := by rw [hinv.data, hinv.pos]; omega
  have hbyte : s.fd.data.getD s.fd.pos 0 = S.getD (o + (len - 1)) 0 := by
    rw [hinv.data, hinv.pos]
  have hw := window_after_store S len s o hinv h1
  have hrp : (read s.fd 1).2.pos = o + len := by
    rw [read_pos, read_one _ hp, hinv.pos]; simp; omega
  have hcmp : compare_loop (store s.buf (s.readp + (len - 1)) [S.getD (o + (len - 1)) 0])
      s.readp value mask len 0 = len ↔ window_matches S value mask len o := by
    have h := compare_loop_eq_iff
      (store s.buf (s.readp + (len - 1)) [S.getD (o + (len - 1)) 0]) s.readp value mask len 0
    rw [Nat.zero_add] at h
    rw [h]
    unfold window_matches
    constructor
    · intro hh i hi
      have := hh i (Nat.zero_le _) (by omega)
      rwa [hw i hi] at this
    · intro hh j _ hj
      rw [hw j hj]
      exact hh j hj
  have hlen : (store s.buf (s.readp + (len - 1)) [S.getD (o + (len - 1)) 0]).length =
      BUFFER_SIZE := by
    rw [store_length, hinv.buflen]
  rw [search_turn_eq, read_one _ hp, hbyte]
  rw [if_neg (show ¬ ([S.getD (o + (len - 1)) 0].length ≠ 1) from fun h => h rfl)]
  by_cases hm : window_matches S value mask len o
  · obtain ⟨s4, hon, a1, a2, a3, a4, a5, a6, a7, a8⟩ := on_match_spec cfg filename
      { s with
        fd := (read s.fd 1).2,
        buf := store s.buf (s.readp + (len - 1)) [S.getD (o + (len - 1)) 0] }
      o hinv.off ho hctx
    refine ⟨s4, ?_, ?_, ?_, ?_, ?_, ?_, ?_, ?_, ?_, ?_⟩
    · rw [a1]; exact hinv.data
    · rw [a2]; exact hrp
    · rw [a5]; exact hinv.off
    · rw [a3]; exact hlen
    · rw [a4]; exact hinv.room
    · rw [a3, a4]; exact hw
    · rw [a6]; simp only [hm, if_true]
    · rw [a7]
      by_cases hpc : cfg.print_count = true <;> simp [hm, hpc]
    · exact a8
    · rw [if_pos (hcmp.mpr hm), hon]
      simp only [hcmp.mpr hm, hm, true_and]
  · refine ⟨{ s with
        fd := (read s.fd 1).2,
        buf := store s.buf (s.readp + (len - 1)) [S.getD (o + (len - 1)) 0] },
      hinv.data, hrp, hinv.off, hlen, hinv.room, hw, ?_, ?_, fun _ => rfl, ?_⟩
    · simp only [hm, if_false]
    · simp [hm]
    · rw [if_neg (fun h => hm (hcmp.mp h))]
      simp only [hm, false_and, if_false]
      rw [if_neg (fun h => hm (hcmp.mp h.1))]

/-! ### The main loop -/

theorem search_end_outcome (cfg : Config) (filename : String) (result : Int) (s : Scan) :
    (search_end cfg filename result s).outcome = .returned result := by
  unfold search_end; split <;> rfl

theorem search_end_fd (cfg : Config) (filename : String) (result : Int) (s : Scan) :
    (search_end cfg filename result s).fd = s.fd := by
  unfold search_end; split <;> rfl

theorem search_end_offsets (cfg : Config) (filename : String) (result : Int) (s : Scan) :
    match_offsets (search_end cfg filename result s).out = match_offsets s.out := by
  unfold search_end
  split
  · simp [match_offsets_append, match_offsets]
  · rfl

theorem search_end_count (cfg : Config) (filename : String) (result : Int) (s : Scan)
    (hpc : cfg.print_count = true) :
    (search_end cfg filename result s).out = s.out ++ [.count_line filename s.count] := by
  unfold search_end; rw [if_pos hpc]

theorem search_loop_succ (cfg : Config) (filename : String) (value mask : List Nat) (len : Nat)
    (fuel : Nat) (s : Scan) :
    search_loop cfg filename value mask len (fuel + 1) s =
      match search_turn cfg filename value mask len s with
      | .next s1 => search_loop cfg filename value mask len fuel s1
      | .done result s1 => some (search_end cfg filename result s1)
      | .died d s1 => some ⟨.died d, s1.fd, s1.out⟩
      | .stuck => none := by
  rfl

theorem range_filter_cons (p : Nat → Bool) (o n : Nat) :
    (List.range' o (n + 1)).filter p =
      if p o then o :: (List.range' (o + 1) n).filter p else (List.range' (o + 1) n).filter p := by
  rw [List.range'_succ, List.filter_cons]

/-- Without `-f` the loop runs to the end of the source and reports every
matching window from `o` on. -/
theorem search_loop_all (cfg : Config) (filename : String) (S value mask : List Nat)
    (len : Nat) (h1 : 1 ≤ len) (h512 : len ≤ 512) (hS : S.length < 2 ^ 63)
    (hctx : 0 ≤ to_int32 (cfg.bytes_before + cfg.bytes_after))
    (hfirst : cfg.first_only = false) (n : Nat) :
    ∀ (s : Scan) (o fuel : Nat), Inv S len s o → S.length + 1 - len - o = n → n < fuel →
      ∃ r, search_loop cfg filename value mask len fuel s = some r ∧
        r.outcome = .returned (-1) ∧ r.fd.data = S ∧
        match_offsets r.out = match_offsets s.out ++
          (if cfg.print_count = true then []
            else (List.range' o n).filter (fun x => decide (window_matches S value mask len x))) ∧
        (cfg.print_count = true → r.out = s.out ++ [.count_line filename (count_after s.count
          ((List.range' o n).filter
            (fun x => decide (window_matches S value mask len x))).length)]) := by
  induction n with
  | zero =>
    intro s o fuel hinv hn hfuel
    obtain ⟨fuel, rfl⟩ : ∃ f, fuel = f + 1 := ⟨fuel - 1, by omega⟩
    have heof : s.fd.data.length ≤ s.fd.pos := by rw [hinv.data, hinv.pos]; omega
    rw [search_loop_succ, search_turn_eof _ _ _ _ _ _ heof]
    refine ⟨_, rfl, search_end_outcome _ _ _ _, ?_, ?_, ?_⟩
    · rw [search_end_fd]; exact hinv.data
    · rw [search_end_offsets]; simp
    · intro hpc
      rw [search_end_count _ _ _ _ hpc]
      rfl
  | succ n ih =>
    intro s o fuel hinv hn hfuel
    obtain ⟨fuel, rfl⟩ : ∃ f, fuel = f + 1 := ⟨fuel - 1, by omega⟩
    obtain ⟨s4, b1, b2, b3, b4, b5, b6, b7, b8, b9, hturn⟩ :=
      search_turn_step cfg filename S value mask len s o hinv h1 (by omega) (by omega) hctx
    obtain ⟨hinv2, c1, c2, c3⟩ := advance_inv S len s4 o h1 h512 b1 b2 b3 b4 b5 b6
    rw [search_loop_succ, hturn, if_neg (by simp [hfirst])]
    obtain ⟨r, hr, d1, d2, d3, d4⟩ := ih (advance len s4) (o + 1) fuel hinv2 (by omega) (by omega)
    refine ⟨r, hr, d1, d2, ?_, ?_⟩
    · rw [d3, c1, b8, range_filter_cons]
      by_cases hm : window_matches S value mask len o <;>
        by_cases hpc : cfg.print_count = true <;> simp [hm, hpc]
    · intro hpc
      rw [d4 hpc, c1, b9 hpc, c2, b7, range_filter_cons]
      by_cases hm : window_matches S value mask len o <;> simp [hm, count_after]

/-- With `-f` the loop stops at the first matching window from `o` on. -/
theorem search_loop_first (cfg : Config) (filename : String) (S value mask : List Nat)
    (len : Nat) (h1 : 1 ≤ len) (h512 : len ≤ 512) (hS : S.length < 2 ^ 63)
    (hctx : 0 ≤ to_int32 (cfg.bytes_before + cfg.bytes_after))
    (hfirst : cfg.first_only = true) (n : Nat) :
    ∀ (s : Scan) (o fuel : Nat), Inv S len s o → S.length + 1 - len - o = n → n < fuel →
      ∃ r, search_loop cfg filename value mask len fuel s = some r ∧ r.fd.data = S ∧
        ((List.range' o n).filter (fun x => decide (window_matches S value mask len x)) = [] →
          r.outcome = .returned (-1) ∧ match_offsets r.out = match_offsets s.out ∧
          (cfg.print_count = true → r.out = s.out ++ [.count_line filename s.count])) ∧
        (∀ o1 rest,
          (List.range' o n).filter (fun x => decide (window_matches S value mask len x)) =
            o1 :: rest →
          r.outcome = .returned 0 ∧ r.fd.pos = o1 + len ∧
          match_offsets r.out = match_offsets s.out ++
            (if cfg.print_count = true then [] else [o1]) ∧
          (cfg.print_count = true →
            r.out = s.out ++ [.count_line filename (to_int32 (s.count + 1))])) := by
  induction n with
  | zero =>
    intro s o fuel hinv hn hfuel
    obtain ⟨fuel, rfl⟩ : ∃ f, fuel = f + 1 := ⟨fuel - 1, by omega⟩
    have heof : s.fd.data.length ≤ s.fd.pos := by rw [hinv.data, hinv.pos]; omega
    rw [search_loop_succ, search_turn_eof _ _ _ _ _ _ heof]
    refine ⟨_, rfl, ?_, ?_, ?_⟩
    · rw [search_end_fd]; exact hinv.data
    · intro _
      exact ⟨search_end_outcome _ _ _ _, by rw [search_end_offsets],
        fun hpc => by rw [search_end_count _ _ _ _ hpc]⟩
    · intro o1 rest h
      simp at h
  | succ n ih =>
    intro s o fuel hinv hn hfuel
    obtain ⟨fuel, rfl⟩ : ∃ f, fuel = f + 1 := ⟨fuel - 1, by omega⟩
    obtain ⟨s4, b1, b2, b3, b4, b5, b6, b7, b8, b9, hturn⟩ :=
      search_turn_step cfg filename S value mask len s o hinv h1 (by omega) (by omega) hctx
    rw [search_loop_succ, hturn, range_filter_cons]
    by_cases hm : window_matches S value mask len o
    · rw [if_pos ⟨hm, hfirst⟩]
      refine ⟨_, rfl, ?_, ?_, ?_⟩
      · rw [search_end_fd]; exact b1
      · intro h
        simp [hm] at h
      · intro o1 rest h
        simp only [hm, decide_True, if_true, List.cons.injEq] at h
        obtain ⟨rfl, _⟩ := h
        refine ⟨search_end_outcome _ _ _ _, ?_, ?_, ?_⟩
        · rw [search_end_fd]; exact b2
        · rw [search_end_offsets, b8]
          by_cases hpc : cfg.print_count = true <;> simp [hm, hpc]
        · intro hpc
          rw [search_end_count _ _ _ _ hpc, b9 hpc, b7, if_pos hm]
    · obtain ⟨hinv2, c1, c2, c3⟩ := advance_inv S len s4 o h1 h512 b1 b2 b3 b4 b5 b6
      rw [if_neg (fun h => hm h.1)]
      obtain ⟨r, hr, d1, d2, d3⟩ :=
        ih (advance len s4) (o + 1) fuel hinv2 (by omega) (by omega)
      have hout : match_offsets s4.out = match_offsets s.out := by
        rw [b8]; simp [hm]
      have hcount : s4.count = s.count := by rw [b7, if_neg hm]
      simp only [hm, decide_False, Bool.false_eq_true, if_false]
      refine ⟨r, hr, d1, ?_, ?_⟩
      · intro h
        obtain ⟨e1, e2, e3⟩ := d2 h
        refine ⟨e1, by rw [e2, c1, hout], fun hpc => ?_⟩
        rw [e3 hpc, c1, b9 hpc, c2, hcount]
      · intro o1 rest h
        obtain ⟨e1, e2, e3, e4⟩ := d3 o1 rest h
        refine ⟨e1, e2, by rw [e3, c1, hout], fun hpc => ?_⟩
        rw [e4 hpc, c1, b9 hpc, c2, hcount]

/-! ### Priming and skipping -/

theorem prime_loop_spec (S : List Nat) (lenm1 readp base : Nat)
    (hroom : readp + lenm1 ≤ BUFFER_SIZE) (fuel : Nat) :
    ∀ (fd : Fd) (buf : List Nat) (primed : Nat), fd.data = S → fd.pos = base + primed →
      fd.pos ≤ S.length → buf.length = BUFFER_SIZE → primed ≤ lenm1 → lenm1 - primed ≤ fuel →
      (∀ j, j < primed → buf.getD (readp + j) 0 = S.getD (base + j) 0) →
      ∃ ok buf1 fd1, prime_loop lenm1 readp fuel fd buf primed = some (ok, buf1, fd1) ∧
        fd1.data = S ∧ (ok = true ↔ base + lenm1 ≤ S.length) ∧
        (ok = true → fd1.pos = base + lenm1 ∧ buf1.length = BUFFER_SIZE ∧
          ∀ j, j < lenm1 → buf1.getD (readp + j) 0 = S.getD (base + j) 0) := by
  induction fuel with
  | zero =>
    intro fd buf primed hdata hpos hle hbuf hprimed hfuel hwin
    have e : primed = lenm1 := by omega
    subst e
    rw [prime_loop, if_neg (by omega)]
    exact ⟨true, buf, fd, rfl, hdata, by simp; omega, fun _ => ⟨hpos, hbuf, hwin⟩⟩
  | succ fuel ih =>
    intro fd buf primed hdata hpos hle hbuf hprimed hfuel hwin
    by_cases hlt : primed < lenm1
    · rw [prime_loop, if_pos hlt]
      have hr1 := read_length_le fd (lenm1 - primed)
      have hr2 := read_pos fd (lenm1 - primed)
      have hr3 := read_bytes fd (lenm1 - primed)
      rw [hdata] at hr1 hr3
      by_cases hr : (read fd (lenm1 - primed)).1.length < 1
      · simp only [hr, if_true]
        refine ⟨false, buf, _, rfl, by rw [read_data]; exact hdata, ?_, fun h => by cases h⟩
        have : ¬ fd.pos < fd.data.length := fun h => by
          have := read_length_pos fd (lenm1 - primed) (by omega) h
          omega
        rw [hdata] at this
        simp
        omega
      · simp only [hr, if_false]
        obtain ⟨ok, buf1, fd1, h, a1, a2, a3⟩ := ih (read fd (lenm1 - primed)).2
          (store buf (readp + primed) (read fd (lenm1 - primed)).1)
          (primed + (read fd (lenm1 - primed)).1.length)
          (by rw [read_data]; exact hdata) (by rw [hr2, hpos]; omega) (by rw [hr2]; omega)
          (by rw [store_length]; exact hbuf) (by omega) (by omega)
          (by
            intro j hj
            rw [store_getD _ _ _ _ (by rw [hbuf]; omega)]
            by_cases hjp : j < primed
            · rw [if_neg (by omega)]
              exact hwin j hjp
            · rw [if_pos (by omega), hr3]
              simp only [List.getD_eq_getElem?_getD, List.getElem?_take, List.getElem?_drop]
              rw [if_pos (by omega)]
              congr 2
              omega)
        exact ⟨ok, buf1, fd1, h, a1, a2, a3⟩
    · have e : primed = lenm1 := by omega
      subst e
      rw [prime_loop, if_neg hlt]
      exact ⟨true, buf, fd, rfl, hdata, by simp; omega, fun _ => ⟨hpos, hbuf, hwin⟩⟩

theorem skip_loop_spec (fuel : Nat) :
    ∀ (fd : Fd) (result n : Int), 0 ≤ n → n.toNat ≤ fuel →
      fd.pos + n.toNat ≤ fd.data.length →
      ∃ fd1, skip_loop fuel fd result n = some (result + n, fd1) ∧
        fd1.data = fd.data ∧ fd1.pos = fd.pos + n.toNat := by
  induction fuel with
  | zero =>
    intro fd result n h0 hf _
    have : n = 0 := by omega
    subst this
    exact ⟨fd, by simp [skip_loop], rfl, rfl⟩
  | succ fuel ih =>
    intro fd result n h0 hf hle
    by_cases hz : n > 0
    · rw [skip_loop, if_pos hz]
      have hr1 := read_length_le fd (min n.toNat BUFFER_SIZE)
      have hr2 := read_pos fd (min n.toNat BUFFER_SIZE)
      have hr4 := read_length_pos fd (min n.toNat BUFFER_SIZE)
        (by simp only [BUFFER_SIZE]; omega) (by omega)
      simp only [show ¬ (((read fd (min n.toNat BUFFER_SIZE)).1.length : Int) < 1) by omega,
        if_false]
      obtain ⟨fd1, h, a1, a2⟩ := ih (read fd (min n.toNat BUFFER_SIZE)).2
        (result + (read fd (min n.toNat BUFFER_SIZE)).1.length)
        (n - (read fd (min n.toNat BUFFER_SIZE)).1.length) (by omega) (by omega)
        (by rw [hr2, read_data]; omega)
      refine ⟨fd1, ?_, ?_, ?_⟩
      · rw [h]; congr 2; omega
      · rw [a1, read_data]
      · rw [a2, hr2]; omega
    · have : n = 0 := by omega
      subst this
      exact ⟨fd, by simp [skip_loop], rfl, rfl⟩

theorem to_off_t_of_lt (K : Nat) (hK : K < 2 ^ 63) : to_off_t (K : Int) = K := by
  unfold to_off_t
  split <;> omega

/-- Skipping `K` bytes of a fresh descriptor on a source of at least `K`
bytes gives `K` and leaves the descriptor at `K`. -/
theorem skip_spec (fd : Fd) (K : Nat) (hpos : fd.pos = 0) (hK : K ≤ fd.data.length)
    (hK63 : K < 2 ^ 63) :
    ∃ fd1, skip fd 0 (to_off_t (K : Int)) = some ((K : Int), fd1) ∧
      fd1.data = fd.data ∧ fd1.pos = K := by
  rw [to_off_t_of_lt K hK63]
  unfold skip
  by_cases hs : fd.seekable = true
  · have e : lseek_cur fd (K : Int) = ((K : Int), { fd with pos := K }) := by
      simp [lseek_cur, hs, hpos]
    rw [e]
    simp only [show ¬ ((K : Int) = -1) by omega, if_false]
    exact ⟨_, rfl, rfl, rfl⟩
  · rw [lseek_cur_pipe fd _ hs]
    simp only [if_true, show ¬ ((K : Int) < 0) by omega, if_false]
    obtain ⟨fd1, h, a1, a2⟩ := skip_loop_spec (K : Int).toNat fd 0 K (by omega) (le_refl _)
      (by rw [hpos]; omega)
    refine ⟨fd1, ?_, a1, ?_⟩
    · rw [h]; simp
    · rw [a2, hpos]; simp

/-! ### `searchfile` as a whole -/

theorem searchfile_eq (cfg : Config) (filename : String) (fd : Fd) (value mask : List Nat)
    (len : Nat) :
    searchfile cfg filename fd value mask len =
      match (if cfg.skip_to > 0 then skip fd 0 (to_off_t cfg.skip_to) else some (0, fd)) with
      | none => none
      | some (file_offset, fd1) =>
        if cfg.skip_to > 0 ∧ file_offset % 2 ^ 64 ≠ (cfg.skip_to : Int) % 2 ^ 64 then
          some ⟨.died (.status 1), fd1, []⟩
        else
          match prime_loop (len - 1) 0 (len - 1) fd1 (List.replicate BUFFER_SIZE 0) 0 with
          | none => none
          | some (false, _, fd2) => some ⟨.returned (-1), fd2, []⟩
          | some (true, buf1, fd2) =>
            search_loop cfg filename value mask len (fd2.data.length + 1)
              ⟨fd2, buf1, 0, file_offset, 0, []⟩ := by
  rfl

/-- The skip at the start of `searchfile`: it leaves the descriptor at
`skip_to`. -/
theorem skipped_spec (cfg : Config) (fd : Fd) (hfresh : fd.pos = 0)
    (hK : cfg.skip_to ≤ fd.data.length) (hS : fd.data.length < 2 ^ 63) :
    ∃ fd1, (if cfg.skip_to > 0 then skip fd 0 (to_off_t cfg.skip_to) else some (0, fd)) =
        some ((cfg.skip_to : Int), fd1) ∧
      fd1.data = fd.data ∧ fd1.pos = cfg.skip_to := by
  by_cases h : cfg.skip_to > 0
  · rw [if_pos h]
    exact skip_spec fd cfg.skip_to hfresh hK (by omega)
  · rw [if_neg h]
    have e : cfg.skip_to = 0 := by omega
    refine ⟨fd, ?_, rfl, ?_⟩
    · rw [e]; rfl
    · rw [e]; exact hfresh

/-- What `searchfile` does up to its main loop: on a source with fewer than
`len - 1` bytes from `skip_to` on it returns `-1` having printed nothing,
otherwise it enters the loop with the invariant at `skip_to`. -/
theorem searchfile_primed (cfg : Config) (filename : String) (fd : Fd)
    (value mask : List Nat) (len : Nat) (hfresh : fd.pos = 0) (h1 : 1 ≤ len)
    (h512 : len ≤ 512) (hK : cfg.skip_to ≤ fd.data.length) (hS : fd.data.length < 2 ^ 63) :
    (fd.data.length < cfg.skip_to + (len - 1) ∧
      ∃ fd2, searchfile cfg filename fd value mask len = some ⟨.returned (-1), fd2, []⟩ ∧
        fd2.data = fd.data) ∨
    (cfg.skip_to + (len - 1) ≤ fd.data.length ∧
      ∃ s, searchfile cfg filename fd value mask len =
          search_loop cfg filename value mask len (fd.data.length + 1) s ∧
        Inv fd.data len s cfg.skip_to ∧ s.count = 0 ∧ s.out = []) := by
  obtain ⟨fd1, hskip, a1, a2⟩ := skipped_spec cfg fd hfresh hK hS
  have hB : BUFFER_SIZE = 1024 := rfl
  obtain ⟨ok, buf1, fd2, hprime, b1, b2, b3⟩ := prime_loop_spec fd.data (len - 1) 0
    cfg.skip_to (by rw [hB]; omega) (len - 1) fd1 (List.replicate BUFFER_SIZE 0) 0 a1
    (by rw [a2]; rfl) (by rw [a2]; exact hK) (List.length_replicate _ _) (Nat.zero_le _)
    (le_refl _) (fun j hj => absurd hj (Nat.not_lt_zero _))
  rw [searchfile_eq, hskip]
  simp only [ne_eq, not_true_eq_false, and_false, if_false]
  rw [hprime]
  cases ok with
  | false =>
    left
    refine ⟨?_, fd2, rfl, b1⟩
    have : ¬ (cfg.skip_to + (len - 1) ≤ fd.data.length) := fun h => by
      have := b2.mpr h
      cases this
    omega
  | true =>
    right
    obtain ⟨c1, c2, c3⟩ := b3 rfl
    refine ⟨b2.mp rfl, ⟨fd2, buf1, 0, (cfg.skip_to : Int), 0, []⟩, ?_, ?_, rfl, rfl⟩
    · simp only [b1]
    · exact ⟨b1, c1, rfl, c2, by rw [hB]; show 0 + (len - 1) < 1024; omega, c3⟩

theorem matching_offsets_short (S value mask : List Nat) (len K : Nat)
    (h : S.length < K + len) : matching_offsets S value mask len K = [] := by
  unfold matching_offsets
  have : S.length + 1 - len - K = 0 := by omega
  rw [this]
  rfl

theorem count_after_zero (k : Nat) : ∀ c : Int, count_after c k = to_int32 (c + k) ∨ k = 0 := by
  induction k with
  | zero => intro c; right; rfl
  | succ k ih =>
    intro c
    left
    rw [count_after]
    rcases ih (to_int32 (c + 1)) with h | h
    · rw [h]
      unfold to_int32
      push_cast
      split_ifs <;> omega
    · subst h
      simp [count_after]

/-- Without `-f`, `searchfile` returns `-1` having reported the matching
windows from `skip_to` on, or their number. -/
theorem searchfile_all (cfg : Config) (filename : String) (fd : Fd)
    (value mask : List Nat) (len : Nat) (hfresh : fd.pos = 0) (h1 : 1 ≤ len)
    (h512 : len ≤ 512) (hK : cfg.skip_to ≤ fd.data.length) (hS : fd.data.length < 2 ^ 63)
    (hctx : 0 ≤ to_int32 (cfg.bytes_before + cfg.bytes_after))
    (hfirst : cfg.first_only = false) :
    ∃ r, searchfile cfg filename fd value mask len = some r ∧
      r.outcome = .returned (-1) ∧
      match_offsets r.out = (if cfg.print_count = true then []
        else matching_offsets fd.data value mask len cfg.skip_to) ∧
      (cfg.print_count = true → r.out =
        if fd.data.length < cfg.skip_to + (len - 1) then []
        else [.count_line filename
          (count_after 0 (matching_offsets fd.data value mask len cfg.skip_to).length)]) := by
  rcases searchfile_primed cfg filename fd value mask len hfresh h1 h512 hK hS with
    ⟨hshort, fd2, h, _⟩ | ⟨hlong, s, h, hinv, hc, ho⟩
  · refine ⟨_, h, rfl, ?_, fun _ => by rw [if_pos hshort]⟩
    rw [matching_offsets_short _ _ _ _ _ (by omega)]
    simp [match_offsets]
  · obtain ⟨r, hr, d1, _, d3, d4⟩ := search_loop_all cfg filename fd.data value mask len h1 h512
      hS hctx hfirst (fd.data.length + 1 - len - cfg.skip_to) s cfg.skip_to
      (fd.data.length + 1) hinv rfl (by omega)
    refine ⟨r, by rw [h, hr], d1, ?_, fun hpc => ?_⟩
    · rw [d3, ho]
      rfl
    · rw [d4 hpc, ho, hc, if_neg (by omega)]
      rfl

/-- With `-f`, `searchfile` stops at the first matching window from `skip_to`
on: it returns `0` with the descriptor right after that window, or `-1` when
no window matches. -/
theorem searchfile_first (cfg : Config) (filename : String) (fd : Fd)
    (value mask : List Nat) (len : Nat) (hfresh : fd.pos = 0) (h1 : 1 ≤ len)
    (h512 : len ≤ 512) (hK : cfg.skip_to ≤ fd.data.length) (hS : fd.data.length < 2 ^ 63)
    (hctx : 0 ≤ to_int32 (cfg.bytes_before + cfg.bytes_after))
    (hfirst : cfg.first_only = true) :
    ∃ r, searchfile cfg filename fd value mask len = some r ∧
      (matching_offsets fd.data value mask len cfg.skip_to = [] →
        r.outcome = .returned (-1) ∧ match_offsets r.out = []) ∧
      (∀ o1 rest, matching_offsets fd.data value mask len cfg.skip_to = o1 :: rest →
        r.outcome = .returned 0 ∧ r.fd.pos = o1 + len ∧
        match_offsets r.out = (if cfg.print_count = true then [] else [o1]) ∧
        (cfg.print_count = true → r.out = [.count_line filename 1])) := by
  rcases searchfile_primed cfg filename fd value mask len hfresh h1 h512 hK hS with
    ⟨hshort, fd2, h, _⟩ | ⟨hlong, s, h, hinv, hc, ho⟩
  · refine ⟨_, h, fun _ => ⟨rfl, rfl⟩, fun o1 rest hm => ?_⟩
    rw [matching_offsets_short _ _ _ _ _ (by omega)] at hm
    cases hm
  · obtain ⟨r, hr, _, d2, d3⟩ := search_loop_first cfg filename fd.data value mask len h1 h512
      hS hctx hfirst (fd.data.length + 1 - len - cfg.skip_to) s cfg.skip_to
      (fd.data.length + 1) hinv rfl (by omega)
    refine ⟨r, by rw [h, hr], fun hm => ?_, fun o1 rest hm => ?_⟩
    · obtain ⟨e1, e2, _⟩ := d2 hm
      exact ⟨e1, by rw [e2, ho]; rfl⟩
    · obtain ⟨e1, e2, e3, e4⟩ := d3 o1 rest hm
      refine ⟨e1, e2, by rw [e3, ho]; rfl, fun hpc => ?_⟩
      rw [e4 hpc, ho, hc]
      rfl

/-! ### The matching offsets -/

theorem matching_offsets_pairwise (S value mask : List Nat) (len K : Nat) :
    (matching_offsets S value mask len K).Pairwise (· < ·) := by
  unfold matching_offsets
  exact List.Pairwise.filter _ (List.pairwise_lt_range' K _)

theorem mem_matching_offsets (S value mask : List Nat) (len K o : Nat) :
    o ∈ matching_offsets S value mask len K ↔
      K ≤ o ∧ o + len ≤ S.length ∧ window_matches S value mask len o := by
  unfold matching_offsets
  rw [List.mem_filter, List.mem_range'_1, decide_eq_true_eq]
  constructor
  · rintro ⟨⟨h2, h3⟩, h4⟩
    exact ⟨h2, by omega, h4⟩
  · rintro ⟨h2, h3, h4⟩
    exact ⟨⟨h2, by omega⟩, h4⟩

/-- C1. Without a skip offset, `-f` and `-c`, `searchfile` on a fresh
descriptor reports, in ascending order and each once, exactly the offsets `o`
with `o + len ≤ |S|` whose window matches: all of them, overlapping or not, and
none on a source shorter than the pattern.  (The pattern has 1 to 512 cells,
the size of the source is an `off_t`, and the context widths, when given, add
up to a non-negative `int`.) -/
theorem searchfile_reports_every_match (cfg : Config) (filename : String) (fd : Fd)
    (value mask : List Nat) (len : Nat)
    (hskip : cfg.skip_to = 0) (hfirst : cfg.first_only = false)
    (hcount : cfg.print_count = false)
    (hctx : 0 ≤ to_int32 (cfg.bytes_before + cfg.bytes_after))
    (hfresh : fd.pos = 0) (h1 : 1 ≤ len) (h512 : len ≤ 512)
    (hsize : fd.data.length < 2 ^ 63) :
    ∃ r, searchfile cfg filename fd value mask len = some r ∧
      match_offsets r.out = matching_offsets fd.data value mask len 0 ∧
      (match_offsets r.out).Pairwise (· < ·) ∧
      (∀ o, o ∈ match_offsets r.out ↔
        (o + len ≤ fd.data.length ∧ window_matches fd.data value mask len o)) ∧
      (fd.data.length < len → match_offsets r.out = []) := by
  obtain ⟨r, hr, _, h3, _⟩ := searchfile_all cfg filename fd value mask len hfresh h1 h512
    (by rw [hskip]; exact Nat.zero_le _) hsize hctx hfirst
  rw [hcount, hskip] at h3
  simp only [Bool.false_eq_true, if_false] at h3
  refine ⟨r, hr, h3, ?_, ?_, ?_⟩
  · rw [h3]; exact matching_offsets_pairwise _ _ _ _ _
  · intro o
    rw [h3, mem_matching_offsets]
    simp
  · intro hshort
    rw [h3]
    exact matching_offsets_short _ _ _ _ _ (by omega)

theorem searchfile_reports_every_match_witness :
    ∃ r, searchfile Config.default "f" (Fd.file (cstr "aaaa")) [0x61, 0x61] [0xFF, 0xFF] 2 =
        some r ∧ match_offsets r.out = [0, 1, 2] := by
  obtain ⟨r, hr, h, _⟩ := searchfile_reports_every_match Config.default "f"
    (Fd.file (cstr "aaaa")) [0x61, 0x61] [0xFF, 0xFF] 2 rfl rfl rfl (by decide) rfl
    (by decide) (by decide) (by decide)
  exact ⟨r, hr, h.trans (by decide)⟩

/-- C2. With a skip offset `K > 0` on a source of at least `K` bytes (no `-f`,
no `-c`), `searchfile` on a fresh descriptor reports, in ascending order,
exactly the offsets `o` with `K ≤ o` and `o + len ≤ |S|` whose window matches:
none below `K`, and each as the position from the start of the stream, so a
match at byte `K + 5` is reported as `K + 5`. -/
theorem searchfile_skip_reports_absolute_offsets (cfg : Config) (filename : String)
    (fd : Fd) (value mask : List Nat) (len : Nat)
    (_hK : 0 < cfg.skip_to) (hKS : cfg.skip_to ≤ fd.data.length)
    (hfirst : cfg.first_only = false) (hcount : cfg.print_count = false)
    (hctx : 0 ≤ to_int32 (cfg.bytes_before + cfg.bytes_after))
    (hfresh : fd.pos = 0) (h1 : 1 ≤ len) (h512 : len ≤ 512)
    (hsize : fd.data.length < 2 ^ 63) :
    ∃ r, searchfile cfg filename fd value mask len = some r ∧
      match_offsets r.out = matching_offsets fd.data value mask len cfg.skip_to ∧
      (match_offsets r.out).Pairwise (· < ·) ∧
      (∀ o, o ∈ match_offsets r.out ↔
        (cfg.skip_to ≤ o ∧ o + len ≤ fd.data.length ∧
          window_matches fd.data value mask len o)) := by
  obtain ⟨r, hr, _, h3, _⟩ := searchfile_all cfg filename fd value mask len hfresh h1 h512
    hKS hsize hctx hfirst
  rw [hcount] at h3
  simp only [Bool.false_eq_true, if_false] at h3
  refine ⟨r, hr, h3, ?_, ?_⟩
  · rw [h3]; exact matching_offsets_pairwise _ _ _ _ _
  · intro o
    rw [h3, mem_matching_offsets]

theorem searchfile_skip_reports_absolute_offsets_witness :
    ∃ r, searchfile ⟨0, 0, 2, false, false⟩ "f" (Fd.pipe (cstr "ab12345ab") [1, 3])
        [0x61, 0x62] [0xFF, 0xFF] 2 = some r ∧ match_offsets r.out = [7] := by
  obtain ⟨r, hr, h, _⟩ := searchfile_skip_reports_absolute_offsets ⟨0, 0, 2, false, false⟩ "f"
    (Fd.pipe (cstr "ab12345ab") [1, 3]) [0x61, 0x62] [0xFF, 0xFF] 2 (by decide) (by decide)
    rfl rfl (by decide) rfl (by decide) (by decide) (by decide)
  exact ⟨r, hr, h.trans (by decide)⟩

/-- C3. With `-f` (and no `-c`, skip offset or context), when some window of
the source matches, `searchfile` reports one match, at the smallest matching
offset `o`, and leaves the descriptor at `o + len`, right after that window:
each byte being read once and in order, no byte beyond the window has been
read.  When no window matches, it reports nothing. -/
theorem searchfile_first_only (cfg : Config) (filename : String) (fd : Fd)
    (value mask : List Nat) (len : Nat)
    (hfirst : cfg.first_only = true) (hcount : cfg.print_count = false)
    (hskip : cfg.skip_to = 0) (hbefore : cfg.bytes_before = 0) (hafter : cfg.bytes_after = 0)
    (hfresh : fd.pos = 0) (h1 : 1 ≤ len) (h512 : len ≤ 512)
    (hsize : fd.data.length < 2 ^ 63) :
    ∃ r, searchfile cfg filename fd value mask len = some r ∧
      ((∃ o, o + len ≤ fd.data.length ∧ window_matches fd.data value mask len o) →
        ∃ o, o + len ≤ fd.data.length ∧ window_matches fd.data value mask len o ∧
          (∀ o1, o1 < o → ¬ window_matches fd.data value mask len o1) ∧
          match_offsets r.out = [o] ∧ r.fd.pos = o + len) ∧
      ((¬ ∃ o, o + len ≤ fd.data.length ∧ window_matches fd.data value mask len o) →
        match_offsets r.out = []) := by
  have hctx : 0 ≤ to_int32 (cfg.bytes_before + cfg.bytes_after) := by
    rw [hbefore, hafter]; decide
  obtain ⟨r, hr, hnone, hsome⟩ := searchfile_first cfg filename fd value mask len hfresh h1
    h512 (by rw [hskip]; exact Nat.zero_le _) hsize hctx hfirst
  rw [hskip] at hnone hsome
  have hmem := fun o => mem_matching_offsets fd.data value mask len 0 o
  have hpw := matching_offsets_pairwise fd.data value mask len 0
  refine ⟨r, hr, ?_, ?_⟩
  · rintro ⟨o, ho1, ho2⟩
    cases hlist : matching_offsets fd.data value mask len 0 with
    | nil =>
      have := (hmem o).mpr ⟨Nat.zero_le _, ho1, ho2⟩
      rw [hlist] at this
      cases this
    | cons o1 rest =>
      obtain ⟨_, e2, e3, _⟩ := hsome o1 rest hlist
      have hin : o1 ∈ matching_offsets fd.data value mask len 0 := by
        rw [hlist]; exact List.mem_cons_self _ _
      obtain ⟨_, f1, f2⟩ := (hmem o1).mp hin
      refine ⟨o1, f1, f2, ?_, ?_, e2⟩
      · intro o2 hlt hw
        have hin2 := (hmem o2).mpr ⟨Nat.zero_le _, by omega, hw⟩
        rw [hlist] at hin2 hpw
        rcases List.mem_cons.mp hin2 with h | h
        · omega
        · have := (List.pairwise_cons.mp hpw).1 o2 h
          omega
      · rw [e3, hcount]; rfl
  · intro hno
    cases hlist : matching_offsets fd.data value mask len 0 with
    | nil => exact (hnone hlist).2
    | cons o1 rest =>
      have hin : o1 ∈ matching_offsets fd.data value mask len 0 := by
        rw [hlist]; exact List.mem_cons_self _ _
      obtain ⟨_, f1, f2⟩ := (hmem o1).mp hin
      exact absurd ⟨o1, f1, f2⟩ hno

theorem searchfile_first_only_witness :
    ∃ r, searchfile ⟨0, 0, 0, true, false⟩ "f" (Fd.file (cstr "xaaaa")) [0x61, 0x61]
        [0xFF, 0xFF] 2 = some r ∧ match_offsets r.out = [1] ∧ r.fd.pos = 3 := by
  obtain ⟨r, hr, hsome, _⟩ := searchfile_first_only ⟨0, 0, 0, true, false⟩ "f"
    (Fd.file (cstr "xaaaa")) [0x61, 0x61] [0xFF, 0xFF] 2 rfl rfl rfl rfl rfl rfl
    (by decide) (by decide) (by decide)
  obtain ⟨o, _, ho2, ho3, ho4, ho5⟩ := hsome ⟨1, by decide, by decide⟩
  have h0 : ¬ window_matches (Fd.file (cstr "xaaaa")).data [0x61, 0x61] [0xFF, 0xFF] 2 0 := by
    decide
  have h1 : ¬ 1 < o := fun h => ho3 1 h (by decide)
  have h2 : o ≠ 0 := fun h => h0 (h ▸ ho2)
  have h3 : o = 1 := by omega
  subst h3
  exact ⟨r, hr, ho4, ho5⟩

theorem to_int32_of_lt (k : Nat) (hk : k < 2 ^ 31) : to_int32 (0 + (k : Int)) = k := by
  unfold to_int32
  split <;> omega

/-- In count-only mode (no `-f`), on a source with at least `len - 1` bytes
from `skip_to` on and fewer than 2^31 matching windows, `searchfile` prints
the count line, with the number of matching windows, and nothing else. -/
theorem searchfile_count_line (cfg : Config) (filename : String) (fd : Fd)
    (value mask : List Nat) (len : Nat) (hfresh : fd.pos = 0) (h1 : 1 ≤ len)
    (h512 : len ≤ 512) (hlong : cfg.skip_to + (len - 1) ≤ fd.data.length)
    (hS : fd.data.length < 2 ^ 63)
    (hctx : 0 ≤ to_int32 (cfg.bytes_before + cfg.bytes_after))
    (hfirst : cfg.first_only = false) (hcount : cfg.print_count = true)
    (hfew : (matching_offsets fd.data value mask len cfg.skip_to).length < 2 ^ 31) :
    ∃ r, searchfile cfg filename fd value mask len = some r ∧
      r.out = [.count_line filename
        (matching_offsets fd.data value mask len cfg.skip_to).length] := by
  obtain ⟨r, hr, _, _, h4⟩ := searchfile_all cfg filename fd value mask len hfresh h1 h512
    (by omega) hS hctx hfirst
  refine ⟨r, hr, ?_⟩
  rw [h4 hcount, if_neg (by omega)]
  rcases count_after_zero (matching_offsets fd.data value mask len cfg.skip_to).length 0 with
    h | h
  · rw [h, to_int32_of_lt _ hfew]
  · rw [h]; rfl

/-- Without `-f`, whatever the source holds, `searchfile` returns `-1`. -/
theorem searchfile_result_without_first_only (cfg : Config) (filename : String) (fd : Fd)
    (value mask : List Nat) (len : Nat) (hfresh : fd.pos = 0) (h1 : 1 ≤ len)
    (h512 : len ≤ 512) (hK : cfg.skip_to ≤ fd.data.length) (hS : fd.data.length < 2 ^ 63)
    (hctx : 0 ≤ to_int32 (cfg.bytes_before + cfg.bytes_after))
    (hfirst : cfg.first_only = false) :
    ∃ r, searchfile cfg filename fd value mask len = some r ∧ r.outcome = .returned (-1) := by
  obtain ⟨r, hr, h, _⟩ := searchfile_all cfg filename fd value mask len hfresh h1 h512
    hK hS hctx hfirst
  exact ⟨r, hr, h⟩

/-- C4, at a failing input: in count-only mode, on the empty source and a
pattern of two cells, `searchfile` returns `-1` from its priming loop and no
count line is printed. -/
theorem count_line_missing_on_short_source :
    searchfile ⟨0, 0, 0, false, true⟩ "f" (Fd.file []) [0x61, 0x61] [0xFF, 0xFF] 2 =
      some ⟨.returned (-1), ⟨[], 0, true, []⟩, []⟩ := by
  decide

/-- C5, at a failing input: without `-f`, for the pattern `61` on the
standard input `a` (a match) and on the standard input `b` (no match),
`searchfile` returns `-1` and `main` exits with status 0 alike. -/
theorem exit_status_same_with_and_without_match :
    main Config.default (cstr "61") (Fd.pipe (cstr "a") []) [] =
        some ⟨.code 0, [.match_line "stdin" 0]⟩ ∧
      main Config.default (cstr "61") (Fd.pipe (cstr "b") []) [] = some ⟨.code 0, []⟩ ∧
      (searchfile Config.default "stdin" (Fd.pipe (cstr "a") []) [0x61] [0xFF] 1).map
          (fun r => r.outcome) = some (.returned (-1)) ∧
      (searchfile Config.default "stdin" (Fd.pipe (cstr "b") []) [0x61] [0xFF] 1).map
          (fun r => r.outcome) = some (.returned (-1)) := by
  decide

/-- C6, at a failing input: with `-f` and the pattern `61`, on the files `b`,
`a` the loop of `main` stops after the first file, which has no match, and
never scans the second; on the files `a`, `a` it goes on after the first
match and reports a match in each. -/
theorem first_only_stops_at_wrong_file :
    main ⟨0, 0, 0, true, false⟩ (cstr "61") (Fd.pipe [] [])
        [("p", .regular (Fd.file (cstr "b"))), ("q", .regular (Fd.file (cstr "a")))] =
        some ⟨.code 0, []⟩ ∧
      main ⟨0, 0, 0, true, false⟩ (cstr "61") (Fd.pipe [] [])
        [("p", .regular (Fd.file (cstr "a"))), ("q", .regular (Fd.file (cstr "a")))] =
        some ⟨.code 3, [.match_line "p" 0, .match_line "q" 0]⟩ := by
  decide

/-! ### The pattern compiler -/

theorem parse_loop_cons (h0 : Nat) (t : List Nat) (parse_mode : ParseMode) (value mask : List Nat) :
    parse_loop (h0 :: t) parse_mode value mask =
    (let h1 := t.headD 0
    if h0 = 0 ∨ (parse_mode = .MODE_HEX ∧ h1 = 0) ∨ ¬ value.length < MAX_PATTERN then
      .stopped (h0 :: t) value mask
    else
      let on_quote : Bool := h0 = '"'.toNat
      let on_esc : Bool := h0 = '\\'.toNat
      match parse_mode with
      | .MODE_TXT =>
        if on_quote then parse_loop t .MODE_HEX value mask
        else if on_esc then parse_loop t .MODE_TXT_ESC value mask
        else parse_loop t .MODE_TXT (value ++ [h0 % 256]) (mask ++ [0xff])
      | .MODE_TXT_ESC =>
        parse_loop t .MODE_TXT (value ++ [h0 % 256]) (mask ++ [0xff])
      | .MODE_HEX =>
        if on_quote then parse_loop t .MODE_TXT value mask
        else
          match t with
          | [] => .stopped (h0 :: t) value mask
          | c1 :: t2 =>
            if h0 = '?'.toNat ∧ c1 = '?'.toNat then
              parse_loop t2 .MODE_HEX (value ++ [0]) (mask ++ [0])
            else if h0 = ' '.toNat then
              parse_loop (c1 :: t2) .MODE_HEX value mask
            else
              let v0 := ascii2hex h0
              let v1 := ascii2hex c1
              if v0 = -1 ∨ v1 = -1 then .invalid_hex
              else
                parse_loop t2 .MODE_HEX
                  (value ++ [((v0.toNat <<< 4) ||| v1.toNat) % 256]) (mask ++ [0xFF])) := by
  cases parse_mode <;> cases t <;> rfl


theorem parse_loop_nil (parse_mode : ParseMode) (value mask : List Nat) :
    parse_loop [] parse_mode value mask = .stopped [] value mask := by
  rfl

theorem parse_loop_txt (h0 : Nat) (t value mask : List Nat) :
    parse_loop (h0 :: t) .MODE_TXT value mask =
      if h0 = 0 ∨ ¬ value.length < MAX_PATTERN then .stopped (h0 :: t) value mask
      else if h0 = 34 then parse_loop t .MODE_HEX value mask
      else if h0 = 92 then parse_loop t .MODE_TXT_ESC value mask
      else parse_loop t .MODE_TXT (value ++ [h0 % 256]) (mask ++ [255]) := by
  rw [parse_loop_cons]
  simp

theorem parse_loop_hex (h0 c1 : Nat) (t2 value mask : List Nat) :
    parse_loop (h0 :: c1 :: t2) .MODE_HEX value mask =
      if h0 = 0 ∨ c1 = 0 ∨ ¬ value.length < MAX_PATTERN then .stopped (h0 :: c1 :: t2) value mask
      else if h0 = 34 then parse_loop (c1 :: t2) .MODE_TXT value mask
      else if h0 = 63 ∧ c1 = 63 then parse_loop t2 .MODE_HEX (value ++ [0]) (mask ++ [0])
      else if h0 = 32 then parse_loop (c1 :: t2) .MODE_HEX value mask
      else if ascii2hex h0 = -1 ∨ ascii2hex c1 = -1 then .invalid_hex
      else parse_loop t2 .MODE_HEX
        (value ++ [(((ascii2hex h0).toNat <<< 4) ||| (ascii2hex c1).toNat) % 256])
        (mask ++ [255]) := by
  rw [parse_loop_cons]
  simp

theorem parse_loop_hex_single (h0 : Nat) (value mask : List Nat) :
    parse_loop [h0] .MODE_HEX value mask = .stopped [h0] value mask := by
  rw [parse_loop_cons]
  simp

theorem hex_digit_facts (u : Bool) (n : Nat) (hn : n < 16) :
    hex_digit u n ≠ 0 ∧ hex_digit u n ≠ 34 ∧ hex_digit u n ≠ 63 ∧ hex_digit u n ≠ 32 ∧
      ascii2hex (hex_digit u n) ≠ -1 ∧ (ascii2hex (hex_digit u n)).toNat = n := by
  interval_cases n <;> cases u <;> decide

set_option maxRecDepth 100000 in
theorem nibbles_byte : ∀ b, b < 256 → (((b / 16) <<< 4) ||| (b % 16)) % 256 = b := by
  decide

theorem parse_loop_hex_pair (u : Bool × Bool) (b : Nat) (hb : b < 256) (rest value mask : List Nat)
    (hlen : value.length < MAX_PATTERN) :
    parse_loop (hex_pair u b ++ rest) .MODE_HEX value mask =
      parse_loop rest .MODE_HEX (value ++ [b]) (mask ++ [255]) := by
  have h1 : b / 16 < 16 := by omega
  have h2 : b % 16 < 16 := by omega
  obtain ⟨a0, a1, a2, a3, a4, a5⟩ := hex_digit_facts u.1 (b / 16) h1
  obtain ⟨b0, b1, b2, b3, b4, b5⟩ := hex_digit_facts u.2 (b % 16) h2
  simp only [hex_pair, List.cons_append, List.nil_append]
  generalize hex_digit u.1 (b / 16) = d0 at *
  generalize hex_digit u.2 (b % 16) = d1 at *
  rw [parse_loop_hex]
  simp [a0, a1, a2, a3, a4, a5, b0, b1, b2, b3, b4, b5, hlen, nibbles_byte b hb]

theorem parse_loop_wildcard (rest value mask : List Nat) (hlen : value.length < MAX_PATTERN) :
    parse_loop (63 :: 63 :: rest) .MODE_HEX value mask =
      parse_loop rest .MODE_HEX (value ++ [0]) (mask ++ [0]) := by
  rw [parse_loop_hex]
  simp [hlen]

/-- The characters of a text span, up to and with the closing quote. -/
theorem parse_loop_text (cs : List Nat) :
    ∀ (rest value mask : List Nat),
      (∀ c ∈ cs, 0 < c ∧ c < 256 ∧ c ≠ 34 ∧ c ≠ 92) →
      value.length + cs.length < MAX_PATTERN →
      parse_loop (cs ++ 34 :: rest) .MODE_TXT value mask =
        parse_loop rest .MODE_HEX (value ++ cs) (mask ++ cs.map (fun _ => 255)) := by
  induction cs with
  | nil =>
    intro rest value mask _ hlen
    rw [List.nil_append, parse_loop_txt]
    simp at hlen
    simp [hlen]
  | cons c cs ih =>
    intro rest value mask hwf hlen
    obtain ⟨c0, c1, c2, c3⟩ := hwf c (List.mem_cons_self _ _)
    simp at hlen
    have hl : value.length < MAX_PATTERN := by omega
    rw [List.cons_append, parse_loop_txt]
    have hc0 : c ≠ 0 := by omega
    simp only [hc0, c2, c3, hl, not_true_eq_false, or_self, if_false]
    rw [ih rest _ _ (fun x hx => hwf x (List.mem_cons_of_mem _ hx)) (by simp; omega)]
    simp [Nat.mod_eq_of_lt c1]


theorem parse_loop_hex_expr (bs : List Nat) :
    ∀ (us : List (Bool × Bool)) (rest value mask : List Nat),
      us.length = bs.length → (∀ b ∈ bs, b < 256) →
      value.length + bs.length ≤ MAX_PATTERN →
      parse_loop (hex_expr us bs ++ rest) .MODE_HEX value mask =
        parse_loop rest .MODE_HEX (value ++ bs) (mask ++ List.replicate bs.length 255) := by
  induction bs with
  | nil =>
    intro us rest value mask hus _ _
    cases us with
    | nil => simp [hex_expr]
    | cons u us => simp at hus
  | cons b bs ih =>
    intro us rest value mask hus hb hlen
    cases us with
    | nil => simp at hus
    | cons u us =>
      simp at hus hlen
      simp only [hex_expr, List.append_assoc]
      rw [parse_loop_hex_pair u b (hb b (List.mem_cons_self _ _)) _ _ _ (by omega)]
      rw [ih us rest _ _ hus (fun x hx => hb x (List.mem_cons_of_mem _ hx)) (by simp; omega)]
      simp [List.replicate_succ]

theorem is_hex_digit_facts (c : Nat) (hc : is_hex_digit c) :
    c ≠ 0 ∧ c ≠ 34 ∧ c ≠ 63 ∧ c ≠ 32 ∧ ascii2hex c ≠ -1 := by
  have h : c ≤ 102 := by
    rcases hc with h | h | h <;> simp at h <;> omega
  interval_cases c <;> first | (exfalso; revert hc; decide) | decide

/-- On hex digits alone the loop eats pairs of digits until fewer than two are
left or `MAX_PATTERN` cells are there. -/
theorem parse_loop_hex_digits (n : Nat) :
    ∀ (p value mask : List Nat), p.length = n → (∀ c ∈ p, is_hex_digit c) →
      value.length ≤ 512 →
      ∃ v m, parse_loop p .MODE_HEX value mask =
          .stopped (p.drop (2 * min (p.length / 2) (512 - value.length)))
            (value ++ v) (mask ++ m) ∧
        v.length = min (p.length / 2) (512 - value.length) := by
  induction n using Nat.strong_induction_on with
  | _ n ih =>
    intro p value mask hn hp hlen
    match p, hn, hp with
    | [], _, _ => exact ⟨[], [], by simp [parse_loop_nil], by simp⟩
    | [c], _, _ => exact ⟨[], [], by simp [parse_loop_hex_single], by simp⟩
    | c0 :: c1 :: t, hn, hp =>
      obtain ⟨a0, a1, a2, a3, a4⟩ := is_hex_digit_facts c0 (hp c0 (by simp))
      obtain ⟨b0, b1, b2, b3, b4⟩ := is_hex_digit_facts c1 (hp c1 (by simp))
      rw [parse_loop_hex]
      by_cases hl : value.length < 512
      · have hl2 : value.length < MAX_PATTERN := hl
        simp only [a0, a1, a2, a3, a4, b0, b4, hl2, not_true_eq_false, or_self, if_false,
          false_and]
        simp only [List.length_cons] at hn
        obtain ⟨v, m, hv, hvl⟩ := ih t.length (by omega) t
          (value ++ [(((ascii2hex c0).toNat <<< 4) ||| (ascii2hex c1).toNat) % 256])
          (mask ++ [255]) rfl (fun c hc => hp c (by simp [hc])) (by simp; omega)
        simp only [List.length_append, List.length_singleton, List.append_assoc,
          List.singleton_append] at hv hvl
        refine ⟨((((ascii2hex c0).toNat <<< 4) ||| (ascii2hex c1).toNat) % 256) :: v,
          255 :: m, ?_, ?_⟩
        · rw [hv]
          have e : 2 * min ((c0 :: c1 :: t).length / 2) (512 - value.length) =
              2 * min (t.length / 2) (512 - (value.length + 1)) + 2 := by
            simp only [List.length_cons]; omega
          rw [e]
          rfl
        · simp only [List.length_cons, hvl]
          omega
      · have hl2 : ¬ value.length < MAX_PATTERN := hl
        have e : 512 - value.length = 0 := by omega
        exact ⟨[], [], by simp [hl2, e], by simp [e]⟩


theorem headD_eq_zero_iff (q : List Nat) (hq : ∀ c ∈ q, c ≠ 0) : q.headD 0 = 0 ↔ q = [] := by
  cases q with
  | nil => simp
  | cons c q => simp [hq c (List.mem_cons_self _ _)]

/-- C7. Hex round trip: for bytes `bs`, 1 to 512 of them, the expression that
writes each byte as two hex digits, high nibble first, each digit in upper or
lower case as `us` says, compiles to `|bs|` cells with the values `bs` and the
masks `0xFF`. -/
theorem hex_round_trip (bs : List Nat) (us : List (Bool × Bool))
    (hus : us.length = bs.length) (hbytes : ∀ b ∈ bs, b < 256)
    (h1 : 1 ≤ bs.length) (h512 : bs.length ≤ 512) :
    compile_pattern (hex_expr us bs) = .ok ⟨bs, List.replicate bs.length 0xFF, bs.length⟩ := by
  have h := parse_loop_hex_expr bs us [] [] [] hus hbytes (by simpa [MAX_PATTERN] using h512)
  simp only [List.append_nil, List.nil_append, parse_loop_nil] at h
  unfold compile_pattern
  rw [h]
  have : bs.length ≠ 0 := by omega
  simp [this]

theorem hex_round_trip_witness :
    compile_pattern (hex_expr [(true, false), (false, true)] [0xAB, 0x0C]) =
      .ok ⟨[0xAB, 0x0C], List.replicate 2 0xFF, 2⟩ :=
  hex_round_trip [0xAB, 0x0C] [(true, false), (false, true)] (by decide) (by decide)
    (by decide) (by decide)

/-- C9. An expression of hex digits alone compiles if and only if its length
is even and between 2 and 1024; otherwise (the empty expression, an odd
number of digits, more than 512 bytes) it is rejected with
"invalid/empty search string". -/
theorem hex_digits_compile_iff (p : List Nat) (hp : ∀ c ∈ p, is_hex_digit c) :
    ((∃ pat, compile_pattern p = .ok pat) ↔
        (p.length % 2 = 0 ∧ 2 ≤ p.length ∧ p.length ≤ 1024)) ∧
      (¬ (p.length % 2 = 0 ∧ 2 ≤ p.length ∧ p.length ≤ 1024) →
        compile_pattern p = .error .invalid_or_empty) := by
  obtain ⟨v, m, hv, hvl⟩ := parse_loop_hex_digits p.length p [] [] rfl hp (by simp)
  simp only [List.length_nil, Nat.sub_zero, List.nil_append] at hv hvl
  have hd : (p.drop (2 * min (p.length / 2) 512)).headD 0 = 0 ↔
      p.length ≤ 2 * min (p.length / 2) 512 := by
    rw [headD_eq_zero_iff _ (fun c hc =>
      (is_hex_digit_facts c (hp c (List.mem_of_mem_drop hc))).1)]
    exact List.drop_eq_nil_iff
  have hgood : (p.length % 2 = 0 ∧ 2 ≤ p.length ∧ p.length ≤ 1024) →
      compile_pattern p = .ok ⟨v, m, v.length⟩ := by
    intro hc
    have h1 : ¬ v.length = 0 := by omega
    have h2 : (p.drop (2 * min (p.length / 2) 512)).headD 0 = 0 := hd.mpr (by omega)
    unfold compile_pattern
    rw [hv]
    exact if_neg (not_or.mpr ⟨h1, not_not.mpr h2⟩)
  have hbad : ¬ (p.length % 2 = 0 ∧ 2 ≤ p.length ∧ p.length ≤ 1024) →
      compile_pattern p = .error .invalid_or_empty := by
    intro hc
    have h3 : v.length = 0 ∨ (p.drop (2 * min (p.length / 2) 512)).headD 0 ≠ 0 := by
      by_cases h0 : v.length = 0
      · exact Or.inl h0
      · right
        rw [Ne, hd]
        omega
    unfold compile_pattern
    rw [hv]
    exact if_pos h3
  refine ⟨⟨?_, fun hc => ⟨_, hgood hc⟩⟩, hbad⟩
  rintro ⟨pat, h⟩
  by_contra hc
  rw [hbad hc] at h
  cases h

theorem hex_digits_compile_iff_witness :
    (∃ pat, compile_pattern (cstr "c0ffEE") = .ok pat) ∧
      compile_pattern (cstr "c0f") = .error .invalid_or_empty :=
  ⟨(hex_digits_compile_iff (cstr "c0ffEE") (by decide)).1.mpr (by decide),
    (hex_digits_compile_iff (cstr "c0f") (by decide)).2 (by decide)⟩

/-- C10, as the claim states it, fails: compiling the three characters
double quote, `a`, `b` does not end in an error. -/
theorem unterminated_quote_not_rejected :
    ¬ ∃ e, compile_pattern (cstr "\"ab") = .error e := by
  rintro ⟨e, h⟩
  cases e <;> revert h <;> decide

/-- C10, amended: the expression double quote, `a`, `b`, whose quote is never
closed, compiles to the two cells `(0x61, 0xFF)`, `(0x62, 0xFF)`: the text
span runs to the end of the expression. -/
theorem unterminated_quote_compiles :
    compile_pattern (cstr "\"ab") = .ok ⟨[0x61, 0x62], [0xFF, 0xFF], 2⟩ := by
  decide


/-- The characters of a text span short of its closing quote. -/
theorem parse_loop_text_chars (cs : List Nat) :
    ∀ (rest value mask : List Nat),
      (∀ c ∈ cs, 0 < c ∧ c < 256 ∧ c ≠ 34 ∧ c ≠ 92) →
      value.length + cs.length ≤ MAX_PATTERN →
      parse_loop (cs ++ rest) .MODE_TXT value mask =
        parse_loop rest .MODE_TXT (value ++ cs) (mask ++ cs.map (fun _ => 255)) := by
  induction cs with
  | nil =>
    intro rest value mask _ _
    simp
  | cons c cs ih =>
    intro rest value mask hwf hlen
    obtain ⟨c0, c1, c2, c3⟩ := hwf c (List.mem_cons_self _ _)
    simp only [List.length_cons] at hlen
    have hl : value.length < MAX_PATTERN := by omega
    rw [List.cons_append, parse_loop_txt]
    have hc0 : c ≠ 0 := by omega
    simp only [hc0, c2, c3, hl, not_true_eq_false, or_self, if_false]
    rw [ih rest _ _ (fun x hx => hwf x (List.mem_cons_of_mem _ hx)) (by simp; omega)]
    simp [Nat.mod_eq_of_lt c1]

theorem parse_loop_segment (s : Segment) (rest value mask : List Nat) (hwf : s.wf)
    (hl : value.length < MAX_PATTERN)
    (ht : s.is_hex_mode = false → value.length + s.cells.length < MAX_PATTERN) :
    parse_loop (s.expr ++ rest) .MODE_HEX value mask =
      parse_loop rest .MODE_HEX (value ++ s.cells.map Prod.fst)
        (mask ++ s.cells.map Prod.snd) := by
  cases s with
  | text cs =>
    have ht2 : value.length + cs.length < MAX_PATTERN := by
      simpa [Segment.cells] using ht rfl
    have hwf2 : ∀ c ∈ cs, 0 < c ∧ c < 256 ∧ c ≠ 34 ∧ c ≠ 92 := hwf
    have e : (Segment.text cs).expr ++ rest = 34 :: (cs ++ 34 :: rest) := by
      simp [Segment.expr]
    have hq : parse_loop (34 :: (cs ++ 34 :: rest)) .MODE_HEX value mask =
        parse_loop (cs ++ 34 :: rest) .MODE_TXT value mask := by
      cases cs with
      | nil =>
        rw [List.nil_append, parse_loop_hex]
        simp [hl]
      | cons c cs2 =>
        have hc0 : c ≠ 0 := by
          have := (hwf2 c (List.mem_cons_self _ _)).1
          omega
        rw [List.cons_append, parse_loop_hex]
        simp [hl, hc0]
    rw [e, hq, parse_loop_text cs rest value mask hwf2 ht2]
    simp [Segment.cells, Function.comp_def]
  | hex u b =>
    have hb : b < 256 := hwf
    simp only [Segment.expr, Segment.cells, List.map_cons, List.map_nil]
    exact parse_loop_hex_pair u b hb rest value mask hl
  | wildcard =>
    simp only [Segment.expr, Segment.cells, List.map_cons, List.map_nil]
    exact parse_loop_wildcard rest value mask hl

theorem parse_loop_segments (segs : List Segment) :
    ∀ (rest value mask : List Nat), (∀ s ∈ segs, s.wf) →
      value.length + (segments_cells segs).length < MAX_PATTERN →
      parse_loop (segments_expr segs ++ rest) .MODE_HEX value mask =
        parse_loop rest .MODE_HEX (value ++ (segments_cells segs).map Prod.fst)
          (mask ++ (segments_cells segs).map Prod.snd) := by
  induction segs with
  | nil =>
    intro rest value mask _ _
    simp [segments_expr, segments_cells]
  | cons s segs ih =>
    intro rest value mask hwf hlen
    have hlen2 : value.length + (s.cells.length + (segments_cells segs).length) <
        MAX_PATTERN := by
      simpa [segments_cells] using hlen
    have e : segments_expr (s :: segs) ++ rest = s.expr ++ (segments_expr segs ++ rest) := by
      simp [segments_expr]
    rw [e, parse_loop_segment s _ value mask (hwf s (List.mem_cons_self _ _)) (by omega)
      (fun _ => by omega)]
    rw [ih rest _ _ (fun x hx => hwf x (List.mem_cons_of_mem _ hx))
      (by simp only [List.length_append, List.length_map]; omega)]
    simp [segments_cells]

/-- A text span that brings the pattern to `MAX_PATTERN` cells leaves its
closing quote unread. -/
theorem text_span_full_rejected (cs : List Nat)
    (hwf : ∀ c ∈ cs, 0 < c ∧ c < 256 ∧ c ≠ 34 ∧ c ≠ 92) (hlen : cs.length = MAX_PATTERN) :
    compile_pattern (segments_expr [Segment.text cs]) = .error .invalid_or_empty := by
  have e : segments_expr [Segment.text cs] = 34 :: (cs ++ [34]) := by
    simp [segments_expr, Segment.expr]
  have hq : parse_loop (34 :: (cs ++ [34])) .MODE_HEX [] [] =
      parse_loop (cs ++ [34]) .MODE_TXT [] [] := by
    cases cs with
    | nil => simp [MAX_PATTERN] at hlen
    | cons c cs2 =>
      have hc0 : c ≠ 0 := by
        have := (hwf c (List.mem_cons_self _ _)).1
        omega
      rw [List.cons_append, parse_loop_hex]
      simp [hc0, MAX_PATTERN]
  unfold compile_pattern
  rw [e, hq, parse_loop_text_chars cs [34] [] [] hwf (by simp [hlen]), parse_loop_txt]
  simp [hlen]

/-- C8, as the claim states it, fails: a text span that brings the pattern to
`MAX_PATTERN` cells leaves its closing quote unread, and the expression is
rejected. -/
theorem mixed_mode_full_text_rejected :
    (∀ s ∈ [Segment.text (List.replicate 512 0x61)], s.wf) ∧
      1 ≤ (segments_cells [Segment.text (List.replicate 512 0x61)]).length ∧
      (segments_cells [Segment.text (List.replicate 512 0x61)]).length ≤ MAX_PATTERN ∧
      compile_pattern (segments_expr [Segment.text (List.replicate 512 0x61)]) =
        .error .invalid_or_empty := by
  have hwf : ∀ c ∈ List.replicate 512 0x61, 0 < c ∧ c < 256 ∧ c ≠ 34 ∧ c ≠ 92 := by
    intro c hc
    rw [List.eq_of_mem_replicate hc]
    decide
  have hcells : (segments_cells [Segment.text (List.replicate 512 0x61)]).length = 512 := by
    simp only [segments_cells, Segment.cells, List.map_cons, List.map_nil, List.flatten_cons,
      List.flatten_nil, List.append_nil, List.length_map, List.length_replicate]
  refine ⟨?_, ?_, ?_, ?_⟩
  · intro s hs
    rw [List.mem_singleton] at hs
    subst hs
    exact hwf
  · rw [hcells]; decide
  · rw [hcells]; decide
  · exact text_span_full_rejected _ hwf (List.length_replicate 512 0x61)

/-- C8, amended: a concatenation of well-formed segments (quoted text spans,
hex pairs, `??`) that denotes 1 to `MAX_PATTERN` cells and, when it denotes
exactly `MAX_PATTERN` cells, ends in a hex pair or `??`, compiles to the
concatenation of the cells of its segments. -/
theorem mixed_mode_concat (segs : List Segment) (hwf : ∀ s ∈ segs, s.wf)
    (h1 : 1 ≤ (segments_cells segs).length)
    (h512 : (segments_cells segs).length ≤ MAX_PATTERN)
    (hlast : (segments_cells segs).length = MAX_PATTERN →
      ∃ init last, segs = init ++ [last] ∧ last.is_hex_mode = true) :
    compile_pattern (segments_expr segs) =
      .ok ⟨(segments_cells segs).map Prod.fst, (segments_cells segs).map Prod.snd,
        (segments_cells segs).length⟩ := by
  have hne : ¬ (segments_cells segs).length = 0 := by omega
  have hstop : parse_loop (segments_expr segs) .MODE_HEX [] [] =
      .stopped [] ((segments_cells segs).map Prod.fst) ((segments_cells segs).map Prod.snd) := by
    by_cases hfull : (segments_cells segs).length = MAX_PATTERN
    · obtain ⟨init, last, hsegs, hmode⟩ := hlast hfull
      subst hsegs
      have hc : segments_cells (init ++ [last]) = segments_cells init ++ last.cells := by
        simp [segments_cells]
      have he : segments_expr (init ++ [last]) = segments_expr init ++ (last.expr ++ []) := by
        simp [segments_expr]
      have hone : last.cells.length = 1 := by
        cases last with
        | text cs => simp [Segment.is_hex_mode] at hmode
        | hex u b => rfl
        | wildcard => rfl
      rw [hc, List.length_append, hone] at hfull
      rw [he, parse_loop_segments init _ [] [] (fun s hs => hwf s (by simp [hs]))
        (by simp only [List.length_nil]; omega)]
      rw [parse_loop_segment last [] _ _ (hwf last (by simp))
        (by simp only [List.nil_append, List.length_map]; omega)
        (fun h => by rw [hmode] at h; cases h)]
      rw [parse_loop_nil, hc]
      simp
    · have h := parse_loop_segments segs [] [] [] hwf (by simp only [List.length_nil]; omega)
      simpa [parse_loop_nil] using h
  unfold compile_pattern
  rw [hstop]
  simp [hne]

theorem mixed_mode_concat_witness :
    compile_pattern (segments_expr
        [.text (cstr "foo"), .hex (false, false) 0x00, .text (cstr "bar")]) =
      .ok ⟨[0x66, 0x6f, 0x6f, 0x00, 0x62, 0x61, 0x72],
        [0xFF, 0xFF, 0xFF, 0xFF, 0xFF, 0xFF, 0xFF], 7⟩ :=
  mixed_mode_concat [.text (cstr "foo"), .hex (false, false) 0x00, .text (cstr "bar")]
    (by decide) (by decide) (by decide) (fun h => absurd h (by decide))

/-! ### The parsing loop, turn by turn -/

theorem parse_loop_esc (h0 : Nat) (t value mask : List Nat) :
    parse_loop (h0 :: t) .MODE_TXT_ESC value mask =
      if h0 = 0 ∨ ¬ value.length < MAX_PATTERN then .stopped (h0 :: t) value mask
      else parse_loop t .MODE_TXT (value ++ [h0 % 256]) (mask ++ [255]) := by
  rw [parse_loop_cons]
  simp

/-- One turn of the parsing loop: it fails, or stops where it is, or goes on
with a proper suffix of the characters and the same cells or one more cell,
which is well-formed. -/
theorem parse_loop_turn (h0 : Nat) (t : List Nat) (parse_mode : ParseMode)
    (value mask : List Nat) :
    parse_loop (h0 :: t) parse_mode value mask = .invalid_hex ∨
    parse_loop (h0 :: t) parse_mode value mask = .stopped (h0 :: t) value mask ∨
    ∃ t1 mode1 value1 mask1,
      parse_loop (h0 :: t) parse_mode value mask = parse_loop t1 mode1 value1 mask1 ∧
      t1.length < (h0 :: t).length ∧ t1 <:+ (h0 :: t) ∧
      ((value1 = value ∧ mask1 = mask) ∨
        (value.length < MAX_PATTERN ∧ ∃ a b, value1 = value ++ [a] ∧ mask1 = mask ++ [b] ∧
          (b = 0xFF ∨ (b = 0x00 ∧ a = 0x00)))) := by
  have hs1 : t <:+ (h0 :: t) := List.suffix_cons h0 t
  by_cases hlen : value.length < MAX_PATTERN
  swap
  · right; left
    rw [parse_loop_cons]
    simp [hlen]
  by_cases hz : h0 = 0
  · right; left
    rw [parse_loop_cons]
    simp [hz]
  cases parse_mode with
  | MODE_TXT =>
    right; right
    rw [parse_loop_txt, if_neg (not_or.mpr ⟨hz, not_not.mpr hlen⟩)]
    by_cases hq : h0 = 34
    · exact ⟨t, .MODE_HEX, value, mask, by rw [if_pos hq], by simp, hs1, Or.inl ⟨rfl, rfl⟩⟩
    · by_cases he : h0 = 92
      · exact ⟨t, .MODE_TXT_ESC, value, mask, by rw [if_neg hq, if_pos he], by simp, hs1,
          Or.inl ⟨rfl, rfl⟩⟩
      · exact ⟨t, .MODE_TXT, _, _, by rw [if_neg hq, if_neg he], by simp, hs1,
          Or.inr ⟨hlen, _, _, rfl, rfl, Or.inl rfl⟩⟩
  | MODE_TXT_ESC =>
    right; right
    rw [parse_loop_esc, if_neg (not_or.mpr ⟨hz, not_not.mpr hlen⟩)]
    exact ⟨t, .MODE_TXT, _, _, rfl, by simp, hs1, Or.inr ⟨hlen, _, _, rfl, rfl, Or.inl rfl⟩⟩
  | MODE_HEX =>
    cases t with
    | nil =>
      right; left
      exact parse_loop_hex_single h0 value mask
    | cons c1 t2 =>
      have hs2 : t2 <:+ (h0 :: c1 :: t2) :=
        (List.suffix_cons c1 t2).trans (List.suffix_cons h0 (c1 :: t2))
      rw [parse_loop_hex]
      by_cases hc1 : c1 = 0
      · right; left
        simp [hc1]
      rw [if_neg (not_or.mpr ⟨hz, not_or.mpr ⟨hc1, not_not.mpr hlen⟩⟩)]
      by_cases hq : h0 = 34
      · right; right
        exact ⟨c1 :: t2, .MODE_TXT, value, mask, by rw [if_pos hq], by simp, hs1,
          Or.inl ⟨rfl, rfl⟩⟩
      rw [if_neg hq]
      by_cases hw : h0 = 63 ∧ c1 = 63
      · right; right
        exact ⟨t2, .MODE_HEX, _, _, by rw [if_pos hw], by simp; omega, hs2,
          Or.inr ⟨hlen, _, _, rfl, rfl, Or.inr ⟨rfl, rfl⟩⟩⟩
      rw [if_neg hw]
      by_cases hsp : h0 = 32
      · right; right
        exact ⟨c1 :: t2, .MODE_HEX, value, mask, by rw [if_pos hsp], by simp, hs1,
          Or.inl ⟨rfl, rfl⟩⟩
      rw [if_neg hsp]
      by_cases hbad : ascii2hex h0 = -1 ∨ ascii2hex c1 = -1
      · left
        rw [if_pos hbad]
      · right; right
        exact ⟨t2, .MODE_HEX, _, _, by rw [if_neg hbad], by simp; omega, hs2,
          Or.inr ⟨hlen, _, _, rfl, rfl, Or.inl rfl⟩⟩

theorem cells_wf_nil : cells_wf [] [] := ⟨rfl, fun _ hi => absurd hi (Nat.not_lt_zero _)⟩

theorem cells_wf_append (value mask : List Nat) (a b : Nat) (h : cells_wf value mask)
    (hab : b = 0xFF ∨ (b = 0x00 ∧ a = 0x00)) : cells_wf (value ++ [a]) (mask ++ [b]) := by
  obtain ⟨hl, hc⟩ := h
  refine ⟨by simp [hl], fun i hi => ?_⟩
  simp only [List.length_append, List.length_singleton] at hi
  by_cases hlt : i < mask.length
  · have e1 : (mask ++ [b]).getD i 0 = mask.getD i 0 := by
      simp [List.getD_eq_getElem?_getD, List.getElem?_append_left hlt]
    have e2 : (value ++ [a]).getD i 0 = value.getD i 0 := by
      simp [List.getD_eq_getElem?_getD, List.getElem?_append_left (hl ▸ hlt)]
    rw [e1, e2]
    exact hc i hlt
  · have hi2 : i = mask.length := by omega
    have e1 : (mask ++ [b]).getD i 0 = b := by
      subst hi2
      simp [List.getD_eq_getElem?_getD]
    have e2 : (value ++ [a]).getD i 0 = a := by
      rw [hi2, ← hl]
      simp [List.getD_eq_getElem?_getD]
    rw [e1, e2]
    exact hab

/-- The cells that the parsing loop leaves are well-formed and at most
`MAX_PATTERN`, and the characters it leaves are a suffix of those it got. -/
theorem parse_loop_stopped (n : Nat) :
    ∀ (h : List Nat) (parse_mode : ParseMode) (value mask rest value1 mask1 : List Nat),
      h.length = n → cells_wf value mask → value.length ≤ MAX_PATTERN →
      parse_loop h parse_mode value mask = .stopped rest value1 mask1 →
      cells_wf value1 mask1 ∧ value1.length ≤ MAX_PATTERN ∧ rest <:+ h := by
  induction n using Nat.strong_induction_on with
  | _ n ih =>
    intro h parse_mode value mask rest value1 mask1 hn hwf hlen hstop
    cases h with
    | nil =>
      rw [parse_loop_nil] at hstop
      cases hstop
      exact ⟨hwf, hlen, List.suffix_refl _⟩
    | cons h0 t =>
      rcases parse_loop_turn h0 t parse_mode value mask with hbad | hhere | hnext
      · rw [hbad] at hstop
        cases hstop
      · rw [hhere] at hstop
        cases hstop
        exact ⟨hwf, hlen, List.suffix_refl _⟩
      · obtain ⟨t1, mode1, v1, m1, heq, hlt, hsuf, hcells⟩ := hnext
        rw [heq] at hstop
        have hwf1 : cells_wf v1 m1 ∧ v1.length ≤ MAX_PATTERN := by
          rcases hcells with ⟨rfl, rfl⟩ | ⟨hl, a, b, rfl, rfl, hab⟩
          · exact ⟨hwf, hlen⟩
          · refine ⟨cells_wf_append _ _ _ _ hwf hab, ?_⟩
            simp only [List.length_append, List.length_singleton]
            omega
        obtain ⟨r1, r2, r3⟩ := ih t1.length (by omega) t1 mode1 v1 m1 rest value1 mask1 rfl
          hwf1.1 hwf1.2 hstop
        exact ⟨r1, r2, r3.trans hsuf⟩

theorem compile_pattern_stopped (p rest value mask : List Nat)
    (h : parse_loop p .MODE_HEX [] [] = .stopped rest value mask) :
    compile_pattern p =
      if value.length = 0 ∨ rest.headD 0 ≠ 0 then .error .invalid_or_empty
      else .ok ⟨value, mask, value.length⟩ := by
  unfold compile_pattern
  rw [h]

/-- A pattern expression compiles exactly when the parsing loop stops with at
least one cell and nothing left to read. -/
theorem compile_pattern_ok (p : List Nat) (pat : Pattern) (hok : compile_pattern p = .ok pat) :
    ∃ rest value mask, parse_loop p .MODE_HEX [] [] = .stopped rest value mask ∧
      value.length ≠ 0 ∧ rest.headD 0 = 0 ∧ pat = ⟨value, mask, value.length⟩ := by
  cases hloop : parse_loop p .MODE_HEX [] [] with
  | invalid_hex =>
    unfold compile_pattern at hok
    rw [hloop] at hok
    cases hok
  | stopped rest value mask =>
    rw [compile_pattern_stopped p rest value mask hloop] at hok
    by_cases hbad : value.length = 0 ∨ rest.headD 0 ≠ 0
    · rw [if_pos hbad] at hok
      cases hok
    · rw [if_neg hbad] at hok
      cases hok
      exact ⟨rest, value, mask, rfl, fun h => hbad (Or.inl h),
        by_contra fun h => hbad (Or.inr h), rfl⟩

/-- C11. Every successfully compiled pattern is well-formed: it has between 1
and `MAX_PATTERN` cells, `len` values and `len` masks, each mask is `0x00` or
`0xFF`, and the value is `0x00` where the mask is `0x00`. -/
theorem compiled_pattern_well_formed (p : List Nat) (pat : Pattern)
    (hok : compile_pattern p = .ok pat) :
    1 ≤ pat.len ∧ pat.len ≤ MAX_PATTERN ∧ pat.value.length = pat.len ∧
      pat.mask.length = pat.len ∧
      ∀ i, i < pat.len →
        (pat.mask.getD i 0 = 0x00 ∨ pat.mask.getD i 0 = 0xFF) ∧
        (pat.mask.getD i 0 = 0x00 → pat.value.getD i 0 = 0x00) := by
  obtain ⟨rest, value, mask, hloop, hne, _, rfl⟩ := compile_pattern_ok p pat hok
  obtain ⟨⟨hl, hc⟩, hmax, _⟩ := parse_loop_stopped p.length p .MODE_HEX [] [] rest value mask
    rfl cells_wf_nil (Nat.zero_le _) hloop
  refine ⟨by show 1 ≤ value.length; omega, hmax, rfl, hl.symm, fun i hi => ?_⟩
  have hi2 : i < mask.length := by rw [← hl]; exact hi
  rcases hc i hi2 with h | ⟨h1, h2⟩
  · exact ⟨Or.inr h, fun h0 => by rw [h] at h0; cases h0⟩
  · exact ⟨Or.inl h1, fun _ => h2⟩

theorem compiled_pattern_well_formed_witness :
    1 ≤ (4 : Nat) ∧ 4 ≤ MAX_PATTERN ∧ [0xff, 0xee, 0x00, 0xcc].length = 4 ∧
      [0xff, 0xff, 0x00, 0xff].length = 4 ∧
      ∀ i, i < 4 →
        (([0xff, 0xff, 0x00, 0xff] : List Nat).getD i 0 = 0x00 ∨
          ([0xff, 0xff, 0x00, 0xff] : List Nat).getD i 0 = 0xFF) ∧
        (([0xff, 0xff, 0x00, 0xff] : List Nat).getD i 0 = 0x00 →
          ([0xff, 0xee, 0x00, 0xcc] : List Nat).getD i 0 = 0x00) :=
  compiled_pattern_well_formed (cstr "ffee??cc")
    ⟨[0xff, 0xee, 0x00, 0xcc], [0xff, 0xff, 0x00, 0xff], 4⟩ (by decide)

/-- C14. Inside a quoted text span a backslash makes the next character
literal: for every character `c` other than NUL, the expression double quote,
backslash, `c`, double quote compiles to the one cell `(c, 0xFF)`; so
backslash-quote gives `0x22`, backslash-backslash `0x5C` and backslash-n
`0x6E`. -/
theorem escaped_char_is_literal (c : Nat) (h0 : 0 < c) (h256 : c < 256) :
    compile_pattern ['"'.toNat, '\\'.toNat, c, '"'.toNat] = .ok ⟨[c], [0xFF], 1⟩ := by
  have hc : c ≠ 0 := by omega
  have e : parse_loop [34, 92, c, 34] .MODE_HEX [] [] = .stopped [] [c] [255] := by
    rw [parse_loop_hex, if_neg (by simp [MAX_PATTERN]), if_pos rfl,
      parse_loop_txt, if_neg (by simp [MAX_PATTERN]), if_neg (by decide), if_pos rfl,
      parse_loop_esc, if_neg (by simp [MAX_PATTERN, hc]),
      parse_loop_txt, if_neg (by simp [MAX_PATTERN]), if_pos rfl, parse_loop_nil,
      Nat.mod_eq_of_lt h256]
    rfl
  rw [show ['"'.toNat, '\\'.toNat, c, '"'.toNat] = [34, 92, c, 34] from rfl,
    compile_pattern_stopped _ _ _ _ e]
  rfl

theorem escaped_char_is_literal_witness :
    compile_pattern (cstr "\"\\\"\"") = .ok ⟨[0x22], [0xFF], 1⟩ ∧
      compile_pattern (cstr "\"\\\\\"") = .ok ⟨[0x5C], [0xFF], 1⟩ ∧
      compile_pattern (cstr "\"\\n\"") = .ok ⟨[0x6E], [0xFF], 1⟩ :=
  ⟨escaped_char_is_literal 0x22 (by decide) (by decide),
    escaped_char_is_literal 0x5C (by decide) (by decide),
    escaped_char_is_literal 0x6E (by decide) (by decide)⟩

/-! ### Wildcards and spaces -/

theorem wildcard_expr_succ (L : Nat) : wildcard_expr (L + 1) = 63 :: 63 :: wildcard_expr L := by
  simp [wildcard_expr, List.replicate_succ]

theorem wildcard_expr_ne_zero (L : Nat) : ∀ c ∈ wildcard_expr L, c ≠ 0 := by
  induction L with
  | zero => simp [wildcard_expr]
  | succ L ih =>
    rw [wildcard_expr_succ]
    intro c hc
    rcases List.mem_cons.mp hc with rfl | hc
    · decide
    · rcases List.mem_cons.mp hc with rfl | hc
      · decide
      · exact ih c hc

theorem parse_loop_wildcards (L : Nat) :
    ∀ (rest value mask : List Nat), value.length + L ≤ MAX_PATTERN →
      parse_loop (wildcard_expr L ++ rest) .MODE_HEX value mask =
        parse_loop rest .MODE_HEX (value ++ List.replicate L 0) (mask ++ List.replicate L 0) := by
  induction L with
  | zero =>
    intro rest value mask _
    simp [wildcard_expr]
  | succ L ih =>
    intro rest value mask hlen
    rw [wildcard_expr_succ, List.cons_append, List.cons_append,
      parse_loop_wildcard _ _ _ (by omega), ih _ _ _ (by simp; omega)]
    simp [List.replicate_succ]

theorem compile_wildcard_expr (L : Nat) (h1 : 1 ≤ L) (h512 : L ≤ 512) :
    compile_pattern (wildcard_expr L) = .ok ⟨List.replicate L 0, List.replicate L 0, L⟩ := by
  have h := parse_loop_wildcards L [] [] [] (by simpa [MAX_PATTERN] using h512)
  simp only [List.append_nil, List.nil_append, parse_loop_nil] at h
  rw [compile_pattern_stopped _ _ _ _ h, List.length_replicate]
  exact if_neg (not_or.mpr ⟨by omega, by simp⟩)

theorem parse_loop_space (c1 : Nat) (t2 value mask : List Nat) (hc1 : c1 ≠ 0)
    (hlen : value.length < MAX_PATTERN) :
    parse_loop (32 :: c1 :: t2) .MODE_HEX value mask =
      parse_loop (c1 :: t2) .MODE_HEX value mask := by
  rw [parse_loop_hex, if_neg (by simp [hc1, hlen]), if_neg (by decide), if_neg (by simp),
    if_pos rfl]

theorem parse_loop_spaces (n : Nat) (c : Nat) (t value mask : List Nat) (hc : c ≠ 0)
    (hlen : value.length < MAX_PATTERN) :
    parse_loop (List.replicate n 32 ++ c :: t) .MODE_HEX value mask =
      parse_loop (c :: t) .MODE_HEX value mask := by
  induction n with
  | zero => simp
  | succ n ih =>
    cases n with
    | zero =>
      simp only [List.replicate_succ, List.replicate_zero, List.cons_append, List.nil_append]
      exact parse_loop_space c t value mask hc hlen
    | succ k =>
      rw [List.replicate_succ, List.cons_append]
      rw [List.replicate_succ, List.cons_append] at ih ⊢
      rw [parse_loop_space _ _ _ _ (by decide) hlen]
      exact ih

/-! ### No silent truncation -/

/-- Once the parsing loop has stopped at the end of `p` with `MAX_PATTERN`
cells, it stops at the same place, with the same cells, whatever follows `p`. -/
theorem parse_loop_full_append (n : Nat) :
    ∀ (p : List Nat) (parse_mode : ParseMode) (value mask value1 mask1 s : List Nat),
      p.length = n → parse_loop p parse_mode value mask = .stopped [] value1 mask1 →
      ¬ value1.length < MAX_PATTERN → s.headD 0 ≠ 0 →
      parse_loop (p ++ s) parse_mode value mask = .stopped s value1 mask1 := by
  induction n using Nat.strong_induction_on with
  | _ n ih =>
    intro p parse_mode value mask value1 mask1 s hn hstop hfull hs
    cases p with
    | nil =>
      rw [parse_loop_nil] at hstop
      cases hstop
      cases s with
      | nil => simp at hs
      | cons c t =>
        rw [List.nil_append, parse_loop_cons]
        simp [hfull]
    | cons h0 t =>
      have hlen : value.length < MAX_PATTERN := by
        by_contra hc
        rw [parse_loop_cons] at hstop
        simp [hc] at hstop
      have hz : h0 ≠ 0 := by
        intro hc
        rw [parse_loop_cons] at hstop
        simp [hc] at hstop
      cases parse_mode with
      | MODE_TXT =>
        rw [parse_loop_txt, if_neg (not_or.mpr ⟨hz, not_not.mpr hlen⟩)] at hstop
        rw [List.cons_append, parse_loop_txt, if_neg (not_or.mpr ⟨hz, not_not.mpr hlen⟩)]
        by_cases hq : h0 = 34
        · rw [if_pos hq] at hstop ⊢
          exact ih t.length (by simp [← hn]) t _ _ _ _ _ s rfl hstop hfull hs
        · rw [if_neg hq] at hstop ⊢
          by_cases he : h0 = 92
          · rw [if_pos he] at hstop ⊢
            exact ih t.length (by simp [← hn]) t _ _ _ _ _ s rfl hstop hfull hs
          · rw [if_neg he] at hstop ⊢
            exact ih t.length (by simp [← hn]) t _ _ _ _ _ s rfl hstop hfull hs
      | MODE_TXT_ESC =>
        rw [parse_loop_esc, if_neg (not_or.mpr ⟨hz, not_not.mpr hlen⟩)] at hstop
        rw [List.cons_append, parse_loop_esc, if_neg (not_or.mpr ⟨hz, not_not.mpr hlen⟩)]
        exact ih t.length (by simp [← hn]) t _ _ _ _ _ s rfl hstop hfull hs
      | MODE_HEX =>
        cases t with
        | nil =>
          rw [parse_loop_hex_single] at hstop
          cases hstop
        | cons c1 t2 =>
          have hc1 : c1 ≠ 0 := by
            intro hc
            rw [parse_loop_hex] at hstop
            simp [hc] at hstop
          have hcond : ¬ (h0 = 0 ∨ c1 = 0 ∨ ¬ value.length < MAX_PATTERN) :=
            not_or.mpr ⟨hz, not_or.mpr ⟨hc1, not_not.mpr hlen⟩⟩
          rw [parse_loop_hex, if_neg hcond] at hstop
          rw [List.cons_append, List.cons_append, parse_loop_hex, if_neg hcond]
          by_cases hq : h0 = 34
          · rw [if_pos hq] at hstop ⊢
            exact ih (c1 :: t2).length (by simp [← hn]) (c1 :: t2) _ _ _ _ _ s rfl hstop hfull hs
          rw [if_neg hq] at hstop ⊢
          by_cases hw : h0 = 63 ∧ c1 = 63
          · rw [if_pos hw] at hstop ⊢
            exact ih t2.length (by simp [← hn]; omega) t2 _ _ _ _ _ s rfl hstop hfull hs
          rw [if_neg hw] at hstop ⊢
          by_cases hsp : h0 = 32
          · rw [if_pos hsp] at hstop ⊢
            exact ih (c1 :: t2).length (by simp [← hn]) (c1 :: t2) _ _ _ _ _ s rfl hstop hfull hs
          rw [if_neg hsp] at hstop ⊢
          by_cases hbad : ascii2hex h0 = -1 ∨ ascii2hex c1 = -1
          · rw [if_pos hbad] at hstop
            cases hstop
          · rw [if_neg hbad] at hstop ⊢
            exact ih t2.length (by simp [← hn]; omega) t2 _ _ _ _ _ s rfl hstop hfull hs

/-- C20. The pattern compiler never silently truncates: when the expression
`p` compiles, the parsing loop has consumed every character of `p`; and when it
compiles to `MAX_PATTERN` cells, `p` followed by any non-empty `s` is rejected
with "invalid/empty search string". -/
theorem compile_never_truncates (p : List Nat) (pat : Pattern) (hp : ∀ c ∈ p, c ≠ 0)
    (hok : compile_pattern p = .ok pat) :
    parse_loop p .MODE_HEX [] [] = .stopped [] pat.value pat.mask ∧
      (pat.len = MAX_PATTERN → ∀ s : List Nat, s.headD 0 ≠ 0 →
        compile_pattern (p ++ s) = .error .invalid_or_empty) := by
  obtain ⟨rest, value, mask, hloop, hne, hrest, rfl⟩ := compile_pattern_ok p pat hok
  obtain ⟨_, _, hsuf⟩ := parse_loop_stopped p.length p .MODE_HEX [] [] rest value mask
    rfl cells_wf_nil (Nat.zero_le _) hloop
  have hnil : rest = [] :=
    (headD_eq_zero_iff rest (fun c hc => hp c (hsuf.subset hc))).mp hrest
  subst hnil
  refine ⟨hloop, fun hfull s hs => ?_⟩
  have hfull2 : ¬ value.length < MAX_PATTERN := by
    have : value.length = MAX_PATTERN := hfull
    omega
  rw [compile_pattern_stopped (p ++ s) s value mask
    (parse_loop_full_append p.length p .MODE_HEX [] [] value mask s rfl hloop hfull2 hs)]
  exact if_pos (Or.inr hs)

theorem compile_never_truncates_witness :
    parse_loop (wildcard_expr 512) .MODE_HEX [] [] =
        .stopped [] (List.replicate 512 0) (List.replicate 512 0) ∧
      compile_pattern (wildcard_expr 512 ++ cstr "ff") = .error .invalid_or_empty :=
  have h := compile_never_truncates (wildcard_expr 512)
    ⟨List.replicate 512 0, List.replicate 512 0, 512⟩ (wildcard_expr_ne_zero 512)
    (compile_wildcard_expr 512 (by decide) (by decide))
  ⟨h.1, h.2 rfl (cstr "ff") (by decide)⟩

/-- C13, as the claim states it, fails: `ff` compiles and its end is a
HEX-mode cell boundary, but `ff` followed by one space is rejected. -/
theorem space_after_last_cell_rejected :
    ¬ ∀ (p1 p2 : List Nat) (n : Nat) (pat : Pattern), hex_boundary p1 → 1 ≤ n →
      compile_pattern (p1 ++ p2) = .ok pat → compile_pattern (insert_spaces p1 n p2) = .ok pat := by
  intro h
  have hb : hex_boundary (cstr "ff") :=
    ⟨[255], [255], fun rest => parse_loop_hex_pair (false, false) 255 (by decide) rest [] []
      (by decide)⟩
  have h1 := h (cstr "ff") [] 1 ⟨[255], [255], 1⟩ hb (le_refl 1) (by decide)
  revert h1
  decide

/-- C13, amended. In HEX mode a space is ignored where more of the expression
follows: if `p1 ++ p2` compiles, `p1` ends at a HEX-mode cell boundary and `p2`
is not empty, then `p1`, any number of spaces, `p2` compiles to the same
pattern. -/
theorem spaces_at_boundary_ignored (p1 p2 : List Nat) (n : Nat) (pat : Pattern)
    (hb : hex_boundary p1) (h2 : p2.headD 0 ≠ 0)
    (hok : compile_pattern (p1 ++ p2) = .ok pat) :
    compile_pattern (insert_spaces p1 n p2) = .ok pat := by
  obtain ⟨v, m, hvm⟩ := hb
  obtain ⟨rest, value, mask, hloop, hne, hrest, rfl⟩ := compile_pattern_ok _ pat hok
  cases p2 with
  | nil => simp at h2
  | cons c t =>
    have hc : c ≠ 0 := h2
    rw [hvm] at hloop
    have hlen : v.length < MAX_PATTERN := by
      by_contra hfull
      rw [parse_loop_cons] at hloop
      simp only [hfull, not_false_eq_true, or_true, if_true] at hloop
      cases hloop
      exact hc hrest
    have e : parse_loop (insert_spaces p1 n (c :: t)) .MODE_HEX [] [] =
        .stopped rest value mask := by
      unfold insert_spaces
      rw [List.append_assoc, hvm]
      exact (parse_loop_spaces n c t v m hc hlen).trans hloop
    rw [compile_pattern_stopped _ _ _ _ e]
    exact if_neg (not_or.mpr ⟨hne, not_not.mpr hrest⟩)

theorem spaces_at_boundary_ignored_witness :
    compile_pattern (cstr "ff   \"a\"") = .ok ⟨[0xff, 0x61], [0xff, 0xff], 2⟩ :=
  spaces_at_boundary_ignored (cstr "ff") (cstr "\"a\"") 3 ⟨[0xff, 0x61], [0xff, 0xff], 2⟩
    ⟨[255], [255], fun rest => parse_loop_hex_pair (false, false) 255 (by decide) rest [] []
      (by decide)⟩ (by decide) (by decide)

/-! ### Scanning with wildcards -/

theorem getD_replicate_zero (L i : Nat) : (List.replicate L 0).getD i 0 = 0 := by
  rw [List.getD_eq_getElem?_getD, List.getElem?_replicate]
  split <;> rfl

theorem window_matches_wildcards (S : List Nat) (L o : Nat) :
    window_matches S (List.replicate L 0) (List.replicate L 0) L o := by
  intro i _
  rw [getD_replicate_zero, Nat.and_zero]

theorem matching_offsets_wildcards (S : List Nat) (L : Nat) :
    matching_offsets S (List.replicate L 0) (List.replicate L 0) L 0 =
      List.range (S.length + 1 - L) := by
  unfold matching_offsets
  rw [List.filter_eq_self.mpr (fun o _ => decide_eq_true (window_matches_wildcards S L o)),
    Nat.sub_zero, List.range_eq_range']

/-- C12. Wildcard identity: for `1 ≤ L ≤ 512` the expression of `L` times `??`
compiles to `L` cells `(0, 0)`, and scanning a source `S` with it (no skip, no
`-f`, no `-c`) reports every offset `0, 1, ..., |S| - L`: `|S| - L + 1` matches
when `|S| ≥ L`, none otherwise.  (The size of the source is an `off_t`, and the
context widths, when given, add up to a non-negative `int`.) -/
theorem wildcard_identity (L : Nat) (h1 : 1 ≤ L) (h512 : L ≤ 512) (cfg : Config)
    (filename : String) (fd : Fd)
    (hskip : cfg.skip_to = 0) (hfirst : cfg.first_only = false)
    (hcount : cfg.print_count = false)
    (hctx : 0 ≤ to_int32 (cfg.bytes_before + cfg.bytes_after))
    (hfresh : fd.pos = 0) (hsize : fd.data.length < 2 ^ 63) :
    compile_pattern (wildcard_expr L) = .ok ⟨List.replicate L 0, List.replicate L 0, L⟩ ∧
      ∃ r, searchfile cfg filename fd (List.replicate L 0) (List.replicate L 0) L = some r ∧
        match_offsets r.out = List.range (fd.data.length + 1 - L) ∧
        (L ≤ fd.data.length → (match_offsets r.out).length = fd.data.length - L + 1) ∧
        (fd.data.length < L → match_offsets r.out = []) := by
  refine ⟨compile_wildcard_expr L h1 h512, ?_⟩
  obtain ⟨r, hr, _, h3, _⟩ := searchfile_all cfg filename fd (List.replicate L 0)
    (List.replicate L 0) L hfresh h1 h512 (by rw [hskip]; exact Nat.zero_le _) hsize hctx hfirst
  rw [hcount, hskip, matching_offsets_wildcards] at h3
  simp only [Bool.false_eq_true, if_false] at h3
  refine ⟨r, hr, h3, fun hle => ?_, fun hlt => ?_⟩
  · rw [h3, List.length_range]
    omega
  · rw [h3, show fd.data.length + 1 - L = 0 from by omega]
    rfl

theorem wildcard_identity_witness :
    compile_pattern (cstr "????") = .ok ⟨[0, 0], [0, 0], 2⟩ ∧
      ∃ r, searchfile Config.default "f" (Fd.file (cstr "abcd")) [0, 0] [0, 0] 2 = some r ∧
        match_offsets r.out = [0, 1, 2] := by
  obtain ⟨hc, r, hr, h, _⟩ := wildcard_identity 2 (by decide) (by decide) Config.default "f"
    (Fd.file (cstr "abcd")) rfl rfl rfl (by decide) rfl (by decide)
  exact ⟨hc, r, hr, h⟩

/-- C18. The example of the built-in help does not hold: `ffeedd??cc` compiles
to the cells `ff ee dd ?? cc`, and scanning the five bytes `ff ee ff x cc` with
them reports nothing, whatever the byte `x`. -/
theorem help_example_does_not_match (x : Nat) :
    compile_pattern (cstr "ffeedd??cc") =
        .ok ⟨[0xff, 0xee, 0xdd, 0x00, 0xcc], [0xff, 0xff, 0xff, 0x00, 0xff], 5⟩ ∧
      ∃ r, searchfile Config.default "f" (Fd.file [0xff, 0xee, 0xff, x, 0xcc])
          [0xff, 0xee, 0xdd, 0x00, 0xcc] [0xff, 0xff, 0xff, 0x00, 0xff] 5 = some r ∧
        match_offsets r.out = [] := by
  refine ⟨by decide, ?_⟩
  obtain ⟨r, hr, _, h3, _⟩ := searchfile_all Config.default "f"
    (Fd.file [0xff, 0xee, 0xff, x, 0xcc]) [0xff, 0xee, 0xdd, 0x00, 0xcc]
    [0xff, 0xff, 0xff, 0x00, 0xff] 5 rfl (by decide) (by decide) (Nat.zero_le _)
    (show 5 < 2 ^ 63 by decide) (by decide) rfl
  have hno : ¬ window_matches [0xff, 0xee, 0xff, x, 0xcc] [0xff, 0xee, 0xdd, 0x00, 0xcc]
      [0xff, 0xff, 0xff, 0x00, 0xff] 5 0 := fun h =>
    absurd (show (255 &&& 255 : Nat) = 221 from h 2 (by decide)) (by decide)
  refine ⟨r, hr, ?_⟩
  rw [h3]
  simp only [Config.default, Bool.false_eq_true, if_false]
  exact List.eq_nil_iff_forall_not_mem.mpr (fun o ho => by
    obtain ⟨_, h5, hw⟩ := (mem_matching_offsets _ _ _ _ _ _).mp ho
    have h0 : o = 0 := by
      have : o + 5 ≤ 5 := h5
      omega
    subst h0
    exact hno hw)

/-! ### The hexadecimal offset of a match line -/

theorem digitChar_facts : ∀ d, d < 16 →
    is_lower_hex (Nat.digitChar d) ∧ hex_digit_value (Nat.digitChar d) = d := by
  decide

theorem hex_value_append (l : List Char) (c : Char) :
    hex_value (l ++ [c]) = 16 * hex_value l + hex_digit_value c := by
  simp [hex_value, List.foldl_append]

theorem hex_value_zeros (k : Nat) (l : List Char) :
    hex_value (List.replicate k '0' ++ l) = hex_value l := by
  induction k with
  | zero => rfl
  | succ k ih =>
    have e : hex_value (List.replicate (k + 1) '0' ++ l) =
        hex_value (List.replicate k '0' ++ l) := by
      simp only [hex_value] at ih ⊢
      rw [List.replicate_succ, List.cons_append, List.foldl_cons]
      rfl
    rw [e, ih]

/-- The digits that `Nat.toDigitsCore` puts in front of `ds`: lowercase hex
digits that denote `n`, as many as `n` needs. -/
theorem toDigitsCore_spec (n : Nat) :
    ∀ (fuel : Nat) (ds : List Char), n < fuel →
      ∃ l, Nat.toDigitsCore 16 fuel n ds = l ++ ds ∧ (∀ c ∈ l, is_lower_hex c) ∧
        hex_value l = n ∧ 1 ≤ l.length ∧
        (∀ k, 1 ≤ k → n < 16 ^ k → l.length ≤ k) ∧ (∀ k, 16 ^ k ≤ n → k < l.length) := by
  induction n using Nat.strong_induction_on with
  | _ n ih =>
    intro fuel ds hfuel
    obtain ⟨f, rfl⟩ : ∃ f, fuel = f + 1 := ⟨fuel - 1, by omega⟩
    obtain ⟨hd1, hd2⟩ := digitChar_facts (n % 16) (Nat.mod_lt _ (by decide))
    rw [Nat.toDigitsCore]
    by_cases h0 : n / 16 = 0
    · simp only [h0, if_true]
      have hn : n < 16 := by omega
      refine ⟨[Nat.digitChar (n % 16)], rfl, ?_, ?_, by simp, ?_, ?_⟩
      · intro c hc
        rw [List.mem_singleton] at hc
        rw [hc]
        exact hd1
      · have := hex_value_append [] (Nat.digitChar (n % 16))
        rw [List.nil_append] at this
        rw [this, hd2]
        show 16 * 0 + n % 16 = n
        omega
      · intro k hk _
        simpa using hk
      · intro k hk
        cases k with
        | zero => simp
        | succ k =>
          have : 16 ^ 1 ≤ 16 ^ (k + 1) := Nat.pow_le_pow_right (by decide) (by omega)
          omega
    · simp only [h0, if_false]
      obtain ⟨l, hl, a1, a2, a3, a4, a5⟩ := ih (n / 16) (by omega) f
        (Nat.digitChar (n % 16) :: ds) (by omega)
      refine ⟨l ++ [Nat.digitChar (n % 16)], by rw [hl]; simp, ?_, ?_, by simp, ?_, ?_⟩
      · intro c hc
        rcases List.mem_append.mp hc with hc | hc
        · exact a1 c hc
        · rw [List.mem_singleton] at hc
          rw [hc]
          exact hd1
      · rw [hex_value_append, a2, hd2]
        omega
      · intro k hk hn
        obtain ⟨j, rfl⟩ : ∃ j, k = j + 1 := ⟨k - 1, by omega⟩
        have hj : 1 ≤ j := by
          by_contra hj
          have : j = 0 := by omega
          subst this
          simp at hn
          omega
        have : n / 16 < 16 ^ j := by
          rw [Nat.div_lt_iff_lt_mul (by decide)]
          rw [pow_succ] at hn
          exact hn
        have := a4 j hj this
        simp
        omega
      · intro k hk
        cases k with
        | zero => simp
        | succ j =>
          have : 16 ^ j ≤ n / 16 := by
            rw [Nat.le_div_iff_mul_le (by decide)]
            rw [pow_succ] at hk
            exact hk
          have := a5 j this
          simp
          omega

theorem hex_padded_spec (o : Nat) :
    (∀ c ∈ hex_padded 8 o, is_lower_hex c) ∧ hex_value (hex_padded 8 o) = o ∧
      8 ≤ (hex_padded 8 o).length ∧ (o < 2 ^ 32 → (hex_padded 8 o).length = 8) ∧
      (2 ^ 32 ≤ o → hex_padded 8 o = Nat.toDigits 16 o) := by
  obtain ⟨l, hl, a1, a2, a3, a4, a5⟩ := toDigitsCore_spec o (o + 1) [] (by omega)
  rw [List.append_nil] at hl
  have e : hex_padded 8 o = List.replicate (8 - l.length) '0' ++ l := by
    unfold hex_padded Nat.toDigits
    rw [hl]
  have e2 : Nat.toDigits 16 o = l := hl
  rw [e, e2]
  refine ⟨?_, ?_, ?_, ?_, ?_⟩
  · intro c hc
    rcases List.mem_append.mp hc with hc | hc
    · rw [(List.mem_replicate.mp hc).2]
      decide
    · exact a1 c hc
  · rw [hex_value_zeros, a2]
  · simp
    omega
  · intro h
    have := a4 8 (by decide) (by simpa using h)
    simp
    omega
  · intro h
    have := a5 8 (by simpa using h)
    rw [show 8 - l.length = 0 by omega]
    rfl

/-- C17. Match line format: the line of a match at offset `o` under the label
`label` is the label, a colon, a space, the offset `h` and a newline, where
`h` is made of lowercase hex digits only (no `0x`), denotes `o`, has at least
8 digits, exactly 8 when `o < 2^32`, and is the unpadded digits of `o` when
`o ≥ 2^32`; offset 2 is printed as `00000002`. -/
theorem match_line_format (label : String) (o : Nat) :
    Out.text (.match_line label o) = label.toList ++ [':', ' '] ++ hex_padded 8 o ++ ['\n'] ∧
      (∀ c ∈ hex_padded 8 o, is_lower_hex c) ∧ hex_value (hex_padded 8 o) = o ∧
      8 ≤ (hex_padded 8 o).length ∧ (o < 2 ^ 32 → (hex_padded 8 o).length = 8) ∧
      (2 ^ 32 ≤ o → hex_padded 8 o = Nat.toDigits 16 o) ∧
      hex_padded 8 2 = "00000002".toList :=
  ⟨rfl, (hex_padded_spec o).1, (hex_padded_spec o).2.1, (hex_padded_spec o).2.2.1,
    (hex_padded_spec o).2.2.2.1, (hex_padded_spec o).2.2.2.2, by decide⟩

/-! ### The context of a match -/

/-- With a negative `bytes_to_read` the loop of `dump_context` dies in its
first turn, after the `read`, having printed nothing. -/
theorem dump_loop_negative (fuel : Nat) (fd : Fd) (bytes_to_read : Int) (out : List Out)
    (hfuel : fuel ≠ 0) (hneg : bytes_to_read < 0) :
    ∃ fd1, dump_loop fuel fd bytes_to_read out = some ⟨fd1, out, some .errno⟩ ∧
      fd1.data = fd.data ∧ fd1.seekable = fd.seekable := by
  have hz : ¬ bytes_to_read = 0 := by omega
  cases fuel with
  | zero => exact absurd rfl hfuel
  | succ k =>
    rw [dump_loop]
    simp only [hz, if_false, hneg, if_true]
    exact ⟨_, rfl, read_data _ _, read_seekable _ _⟩

theorem to_int32_neg_ne_zero (n : Nat) (h : to_int32 (n : Int) < 0) : n ≠ 0 := by
  intro h0
  subst h0
  revert h
  decide

/-- When the `int` sum of the context widths is negative and the seek to the
start of the context succeeds, `dump_context` dies, having printed nothing. -/
theorem dump_context_negative (cfg : Config) (fd : Fd) (pos : Nat)
    (hs : fd.seekable = true) (hstart : 0 ≤ to_off_t ((pos : Int) - cfg.bytes_before))
    (hneg : to_int32 (cfg.bytes_before + cfg.bytes_after) < 0) :
    ∃ d, dump_context cfg fd pos = some d ∧ d.out = [] ∧ d.died = some .errno ∧
      d.fd.data = fd.data := by
  rw [dump_context_eq, lseek_cur_zero fd hs]
  have hne : ¬ ((fd.pos : Int) = -1) := by omega
  rw [if_neg hne, lseek_set_ok fd _ hs hstart]
  have hne2 : ¬ (to_off_t ((pos : Int) - cfg.bytes_before) = -1) := by omega
  rw [if_neg hne2]
  have hn0 : cfg.bytes_before + cfg.bytes_after ≠ 0 := by
    have := to_int32_neg_ne_zero (cfg.bytes_before + cfg.bytes_after)
      (by push_cast; exact hneg)
    exact this
  obtain ⟨fd1, h1, h2, _⟩ := dump_loop_negative (cfg.bytes_before + cfg.bytes_after)
    { fd with pos := (to_off_t ((pos : Int) - cfg.bytes_before)).toNat }
    (to_int32 (cfg.bytes_before + cfg.bytes_after)) [] hn0 hneg
  rw [h1]
  exact ⟨_, rfl, rfl, rfl, h2⟩

/-- Whatever the widths, `dump_context` ends, and when it returns the file
position is what it was. -/
theorem dump_context_total (cfg : Config) (fd : Fd) (pos : Nat) :
    ∃ d, dump_context cfg fd pos = some d ∧ d.fd.data = fd.data ∧
      (d.died = none → d.fd.pos = fd.pos) := by
  by_cases hctx : 0 ≤ to_int32 (cfg.bytes_before + cfg.bytes_after)
  · obtain ⟨d, hd, h1, h2, h3, _⟩ := dump_context_spec cfg fd pos hctx
    exact ⟨d, hd, h2, fun _ => h3⟩
  · by_cases hs : fd.seekable = true
    · by_cases hstart : 0 ≤ to_off_t ((pos : Int) - cfg.bytes_before)
      · obtain ⟨d, hd, _, h2, h3⟩ := dump_context_negative cfg fd pos hs hstart (by omega)
        exact ⟨d, hd, h3, fun h => by rw [h2] at h; cases h⟩
      · rw [dump_context_eq, lseek_cur_zero fd hs]
        have hne : ¬ ((fd.pos : Int) = -1) := by omega
        rw [if_neg hne, lseek_set_neg fd _ hstart, if_pos rfl]
        exact ⟨_, rfl, rfl, fun _ => rfl⟩
    · rw [dump_context_eq, lseek_cur_pipe fd 0 hs, if_pos rfl]
      exact ⟨_, rfl, rfl, fun _ => rfl⟩


theorem read_full (fd : Fd) (c : Nat) (hsched : fd.sched = []) (hc : 1 ≤ c)
    (hpos : fd.pos + c ≤ fd.data.length) :
    read fd c = ((fd.data.drop fd.pos).take c, { fd with pos := fd.pos + c }) := by
  obtain ⟨data, pos, seekable, sched⟩ := fd
  simp only at hsched hpos
  subst hsched
  have e : min (min c (data.length - pos)) (max 1 c) = c := by omega
  simp only [read, List.length_drop, List.headD_nil, List.tail_nil, e]

/-- On a source whose reads are never short, the loop of `dump_context` prints
the next `n` bytes, for `n` below 2^31. -/
theorem dump_loop_content (fuel : Nat) : ∀ (fd : Fd) (n : Nat) (out : List Out),
    fd.sched = [] → n < 2 ^ 31 → n ≤ fuel → fd.pos + n ≤ fd.data.length →
    dump_loop fuel fd (n : Int) out =
      some ⟨{ fd with pos := fd.pos + n },
        out ++ ((fd.data.drop fd.pos).take n).map Out.context_char, none⟩ := by
  induction fuel with
  | zero =>
    intro fd n out _ _ hf _
    have : n = 0 := by omega
    subst this
    simp [dump_loop]
  | succ fuel ih =>
    intro fd n out hsched hn hf hpos
    by_cases hz : n = 0
    · subst hz
      simp [dump_loop]
    · have hz2 : ¬ (n : Int) = 0 := by omega
      have hneg : ¬ (n : Int) < 0 := by omega
      rw [dump_loop]
      simp only [hz2, if_false, hneg]
      set chunk : Int := if (n : Int) % 2 ^ 64 > (BUFFER_SIZE : Int) then (BUFFER_SIZE : Int)
        else (n : Int) with hchunk
      have hc : chunk = ((min n 1024 : Nat) : Int) := by
        rw [hchunk]
        simp only [BUFFER_SIZE]
        split <;> omega
      have hc2 : chunk.toNat = min n 1024 := by rw [hc]; rfl
      have hc3 : (n : Int) - chunk = ((n - min n 1024 : Nat) : Int) := by rw [hc]; omega
      rw [hc2, hc3, read_full fd (min n 1024) hsched (by omega) (by omega)]
      simp only []
      rw [ih { fd with pos := fd.pos + min n 1024 } (n - min n 1024) _ hsched (by omega)
        (by omega) (by simp only []; omega)]
      simp only [Option.some.injEq, Dump.mk.injEq, and_true]
      constructor
      · obtain ⟨data, pos, seekable, sched⟩ := fd
        simp only [Fd.mk.injEq, true_and, and_true]
        omega
      · rw [List.append_assoc, ← List.map_append]
        congr 2
        have e : n = min n 1024 + (n - min n 1024) := by omega
        conv_rhs => rw [e, List.take_add, List.drop_drop]

/-- On a regular file whose reads are never short, with widths that add up to
less than 2^31 and a context that lies inside the source, `dump_context`
prints the `B + A` bytes from `o - B` on and a newline, and returns with the
descriptor as it was. -/
theorem dump_context_content (cfg : Config) (fd : Fd) (o : Nat)
    (hs : fd.seekable = true) (hsched : fd.sched = [])
    (hB : cfg.bytes_before ≤ o) (hA : o + cfg.bytes_after ≤ fd.data.length)
    (hsum : cfg.bytes_before + cfg.bytes_after < 2 ^ 31) (ho : o < 2 ^ 63) :
    dump_context cfg fd o =
      some ⟨fd, ((fd.data.drop (o - cfg.bytes_before)).take
        (cfg.bytes_before + cfg.bytes_after)).map Out.context_char ++ [.context_end], none⟩ := by
  rw [dump_context_eq, lseek_cur_zero fd hs]
  have hne : ¬ ((fd.pos : Int) = -1) := by omega
  have hst : to_off_t ((o : Int) - cfg.bytes_before) = ((o - cfg.bytes_before : Nat) : Int) := by
    rw [← to_off_t_of_lt (o - cfg.bytes_before) (by omega)]
    congr 1
    omega
  have hbtr : to_int32 ((cfg.bytes_before : Int) + cfg.bytes_after) =
      ((cfg.bytes_before + cfg.bytes_after : Nat) : Int) := by
    rw [← to_int32_of_lt (cfg.bytes_before + cfg.bytes_after) hsum]
    congr 1
    omega
  rw [if_neg hne, hst, lseek_set_ok fd _ hs (by omega)]
  have hne2 : ¬ (((o - cfg.bytes_before : Nat) : Int) = -1) := by omega
  rw [if_neg hne2, hbtr, Int.toNat_ofNat,
    dump_loop_content _ { fd with pos := o - cfg.bytes_before } _ [] hsched hsum (le_refl _)
      (by simp only []; omega)]
  simp only [List.nil_append]
  rw [lseek_set_ok { fd with pos := o - cfg.bytes_before +
    (cfg.bytes_before + cfg.bytes_after) } _ hs (by omega), if_neg hne]
  obtain ⟨data, pos, seekable, sched⟩ := fd
  simp

set_option maxRecDepth 100000 in
/-- The source's `print_char` renders a byte as the claims say. -/
theorem print_char_render : ∀ c, c < 256 → print_char c = render_byte c := by
  decide

theorem render_context_chars (bytes : List Nat) (hb : ∀ c ∈ bytes, c < 256) :
    render (bytes.map Out.context_char ++ [.context_end]) =
      (bytes.map render_byte).flatten ++ ['\n'] := by
  induction bytes with
  | nil => rfl
  | cons b bytes ih =>
    have h1 := print_char_render b (hb b (List.mem_cons_self _ _))
    have h2 := ih (fun c hc => hb c (List.mem_cons_of_mem _ hc))
    simp only [render, List.map_cons, List.cons_append, List.flatten_cons, List.map_append,
      List.flatten_append, List.append_assoc] at h2 ⊢
    rw [h2]
    show print_char b ++ _ = _
    rw [h1]

/-- C15. The context is not what the claim says once the widths add up to
2^31 or more: with `-A 2G` on a regular file of 2^31 bytes `A` and the match
at offset 0 (so `B ≤ o` and `o + A ≤ |S|`), the sum of the widths becomes the
`int` -2^31 and `dump_context` dies after its first `read`, having printed
nothing. -/
theorem context_width_truncated :
    (0 : Nat) ≤ 0 ∧ 0 + 2147483648 ≤ (List.replicate 2147483648 0x41).length ∧
      ∃ d, dump_context ⟨0, 2147483648, 0, false, false⟩
          ⟨List.replicate 2147483648 0x41, 1, true, []⟩ 0 = some d ∧
        d.out = [] ∧ d.died = some .errno := by
  refine ⟨le_refl 0, by rw [List.length_replicate], ?_⟩
  obtain ⟨d, hd, h1, h2, _⟩ := dump_context_negative ⟨0, 2147483648, 0, false, false⟩
    ⟨List.replicate 2147483648 0x41, 1, true, []⟩ 0 rfl (by decide) (by decide)
  exact ⟨d, hd, h1, h2⟩

/-- With widths whose `int` sum is not negative, the match offsets that
`searchfile` reports (no `-f`) are those it reports without context. -/
theorem searchfile_context_same_offsets (cfg : Config) (filename : String) (fd : Fd)
    (value mask : List Nat) (len : Nat) (hfresh : fd.pos = 0) (h1 : 1 ≤ len)
    (h512 : len ≤ 512) (hK : cfg.skip_to ≤ fd.data.length) (hS : fd.data.length < 2 ^ 63)
    (hctx : 0 ≤ to_int32 (cfg.bytes_before + cfg.bytes_after))
    (hfirst : cfg.first_only = false) :
    ∃ r r0, searchfile cfg filename fd value mask len = some r ∧
      searchfile { cfg with bytes_before := 0, bytes_after := 0 } filename fd value mask len =
        some r0 ∧
      match_offsets r.out = match_offsets r0.out := by
  obtain ⟨r, hr, _, h3, _⟩ := searchfile_all cfg filename fd value mask len hfresh h1 h512 hK hS
    hctx hfirst
  obtain ⟨r0, hr0, _, h30, _⟩ := searchfile_all { cfg with bytes_before := 0, bytes_after := 0 }
    filename fd value mask len hfresh h1 h512 hK hS
    (show 0 ≤ to_int32 (((0 : Nat) : Int) + ((0 : Nat) : Int)) by decide) hfirst
  exact ⟨r, r0, hr, hr0, by rw [h3, h30]⟩

set_option maxRecDepth 100000 in
/-- C16. Context changes what is reported once the widths add up to 2^31 or
more: on the regular file `aa` with the pattern `61`, `searchfile` reports the
offsets 0 and 1 without context, and with `-A 2G` it prints the match line of
offset 0 and dies in `dump_context`, so offset 1 is never reported. -/
theorem context_changes_reported_offsets :
    searchfile ⟨0, 0, 0, false, false⟩ "f" (Fd.file (cstr "aa")) [0x61] [0xFF] 1 =
        some ⟨.returned (-1), ⟨[0x61, 0x61], 2, true, []⟩,
          [.match_line "f" 0, .match_line "f" 1]⟩ ∧
      searchfile ⟨0, 2147483648, 0, false, false⟩ "f" (Fd.file (cstr "aa")) [0x61] [0xFF] 1 =
        some ⟨.died .errno, ⟨[0x61, 0x61], 2, true, []⟩, [.match_line "f" 0]⟩ := by
  constructor
  · decide
  · decide

/-! ### The sliding window -/

/-- The priming loop leaves the bytes it read, the last ones of the source
before the file position, at the start of the window. -/
theorem prime_loop_window (lenm1 readp : Nat) (hroom : readp + lenm1 ≤ BUFFER_SIZE)
    (buf1 : List Nat) (fd2 : Fd) (fuel : Nat) :
    ∀ (fd : Fd) (buf : List Nat) (primed : Nat), buf.length = BUFFER_SIZE → primed ≤ lenm1 →
      primed ≤ fd.pos →
      (∀ j, j < primed → buf.getD (readp + j) 0 = fd.data.getD (fd.pos - primed + j) 0) →
      prime_loop lenm1 readp fuel fd buf primed = some (true, buf1, fd2) →
      buf1.length = BUFFER_SIZE ∧ lenm1 ≤ fd2.pos ∧ fd2.data = fd.data ∧
        ∀ j, j < lenm1 → buf1.getD (readp + j) 0 = fd2.data.getD (fd2.pos - lenm1 + j) 0 := by
  induction fuel with
  | zero =>
    intro fd buf primed hbuf hprimed hpos hwin h
    by_cases hlt : primed < lenm1
    · rw [prime_loop, if_pos hlt] at h
      cases h
    · rw [prime_loop, if_neg hlt] at h
      cases h
      have e : primed = lenm1 := by omega
      subst e
      exact ⟨hbuf, hpos, rfl, hwin⟩
  | succ fuel ih =>
    intro fd buf primed hbuf hprimed hpos hwin h
    by_cases hlt : primed < lenm1
    · rw [prime_loop, if_pos hlt] at h
      have hr1 := read_length_le fd (lenm1 - primed)
      have hr2 := read_pos fd (lenm1 - primed)
      have hr3 := read_bytes fd (lenm1 - primed)
      by_cases hr : (read fd (lenm1 - primed)).1.length < 1
      · simp only [hr, if_true] at h
        cases h
      · simp only [hr, if_false] at h
        obtain ⟨a1, a2, a3, a4⟩ := ih (read fd (lenm1 - primed)).2
          (store buf (readp + primed) (read fd (lenm1 - primed)).1)
          (primed + (read fd (lenm1 - primed)).1.length)
          (by rw [store_length]; exact hbuf) (by omega) (by rw [hr2]; omega)
          (by
            intro j hj
            rw [store_getD _ _ _ _ (by rw [hbuf]; omega), hr2, read_data]
            by_cases hjp : j < primed
            · rw [if_neg (by omega), hwin j hjp]
              congr 1
              omega
            · rw [if_pos (by omega), hr3]
              simp only [List.getD_eq_getElem?_getD, List.getElem?_take, List.getElem?_drop]
              rw [if_pos (by omega)]
              congr 2
              omega)
          h
        exact ⟨a1, a2, by rw [a3, read_data], a4⟩
    · rw [prime_loop, if_neg hlt] at h
      cases h
      have e : primed = lenm1 := by omega
      subst e
      exact ⟨hbuf, hpos, rfl, hwin⟩

/-- The end of the loop body keeps the window: after `++readp`, and after the
compaction when there is one, the `len - 1` cells from `readp` on are the last
`len - 1` bytes before the file position. -/
theorem advance_window (len : Nat) (s : Scan) (h1 : 1 ≤ len) (h512 : len ≤ 512)
    (hbuf : s.buf.length = BUFFER_SIZE) (hroom : s.readp + (len - 1) < BUFFER_SIZE)
    (hpos : len ≤ s.fd.pos)
    (hwin : ∀ j, j < len → s.buf.getD (s.readp + j) 0 = s.fd.data.getD (s.fd.pos - len + j) 0) :
    Window len (advance len s) ∧ (advance len s).fd = s.fd := by
  unfold advance
  have hB : BUFFER_SIZE = 1024 := rfl
  rw [hB] at hroom
  rw [hB]
  by_cases hshift : s.readp + 1 + (len - 1) ≥ 1024
  · rw [if_pos hshift]
    refine ⟨⟨?_, ?_, ?_, ?_⟩, rfl⟩
    · show (memmove s.buf (s.readp + 1) (len - 1)).length = _
      rw [memmove_length, hbuf]
    · show 0 + (len - 1) < BUFFER_SIZE
      rw [hB]; omega
    · show len - 1 ≤ s.fd.pos
      omega
    · intro j hj
      show (memmove s.buf (s.readp + 1) (len - 1)).getD (0 + j) 0 =
        s.fd.data.getD (s.fd.pos - (len - 1) + j) 0
      rw [Nat.zero_add, memmove_getD _ _ _ _ (by rw [hbuf, hB]; omega) hj]
      have := hwin (j + 1) (by omega)
      rw [show s.readp + 1 + j = s.readp + (j + 1) by omega,
        show s.fd.pos - (len - 1) + j = s.fd.pos - len + (j + 1) by omega]
      exact this
  · rw [if_neg hshift]
    refine ⟨⟨hbuf, ?_, ?_, ?_⟩, rfl⟩
    · show s.readp + 1 + (len - 1) < BUFFER_SIZE
      rw [hB]; omega
    · show len - 1 ≤ s.fd.pos
      omega
    · intro j hj
      show s.buf.getD (s.readp + 1 + j) 0 = s.fd.data.getD (s.fd.pos - (len - 1) + j) 0
      have := hwin (j + 1) (by omega)
      rw [show s.readp + 1 + j = s.readp + (j + 1) by omega,
        show s.fd.pos - (len - 1) + j = s.fd.pos - len + (j + 1) by omega]
      exact this

/-- When the block run on a match comes back, the source, the file position
and the buffer are what they were, whatever the options. -/
theorem on_match_frame (cfg : Config) (filename : String) (s s4 : Scan)
    (h : on_match cfg filename s = some (s4, none)) :
    s4.fd.data = s.fd.data ∧ s4.fd.pos = s.fd.pos ∧ s4.buf = s.buf ∧ s4.readp = s.readp := by
  rw [on_match_eq] at h
  by_cases hpc : cfg.print_count = true
  · rw [if_neg (by simp [hpc])] at h
    cases h
    exact ⟨rfl, rfl, rfl, rfl⟩
  · rw [if_pos hpc] at h
    by_cases hc : cfg.bytes_before ≠ 0 ∨ cfg.bytes_after ≠ 0
    · rw [if_pos hc] at h
      obtain ⟨d, hd, h2, h3⟩ := dump_context_total cfg s.fd (s.file_offset % 2 ^ 64).toNat
      rw [hd] at h
      simp only [Option.some.injEq, Prod.mk.injEq] at h
      obtain ⟨hs4, hdied⟩ := h
      subst hs4
      exact ⟨h2, h3 hdied, rfl, rfl⟩
    · rw [if_neg hc] at h
      cases h
      exact ⟨rfl, rfl, rfl, rfl⟩

/-- With the byte just read stored after them, the cells of the window are the
last `len` bytes of the source before the file position. -/
theorem window_after_read (len : Nat) (s : Scan) (hw : Window len s) (h1 : 1 ≤ len)
    (hr : (read s.fd 1).1.length = 1) :
    (read s.fd 1).2.pos = s.fd.pos + 1 ∧
      ∀ j, j < len →
        (store s.buf (s.readp + (len - 1)) (read s.fd 1).1).getD (s.readp + j) 0 =
          s.fd.data.getD ((read s.fd 1).2.pos - len + j) 0 := by
  have hp : s.fd.pos < s.fd.data.length := by
    by_contra hc
    rw [read_eof _ _ (by omega)] at hr
    cases hr
  have hroom := hw.room
  have hpos := hw.pos
  have hrp : (read s.fd 1).2.pos = s.fd.pos + 1 := by rw [read_pos, hr]
  refine ⟨hrp, fun j hj => ?_⟩
  rw [hrp, read_one _ hp, store_getD _ _ _ _ (by rw [hw.buflen]; simp; omega)]
  by_cases hlast : j = len - 1
  · subst hlast
    rw [if_pos (by simp)]
    simp only [Nat.sub_self, List.getD_cons_zero]
    congr 1
    omega
  · rw [if_neg (by simp; omega), hw.recent j (by omega)]
    congr 1
    omega

/-- A turn of the main loop that reaches the end of the loop body keeps the
window, whatever the options and the pattern. -/
theorem search_turn_window (cfg : Config) (filename : String) (value mask : List Nat)
    (len : Nat) (s s1 : Scan) (h1 : 1 ≤ len) (h512 : len ≤ 512) (hw : Window len s)
    (h : search_turn cfg filename value mask len s = .next s1) :
    Window len s1 ∧ s1.fd.data = s.fd.data := by
  rw [search_turn_eq] at h
  by_cases hr : (read s.fd 1).1.length ≠ 1
  · rw [if_pos hr] at h
    cases h
  · rw [if_neg hr] at h
    have hr1 : (read s.fd 1).1.length = 1 := not_not.mp hr
    obtain ⟨hrp, hwin⟩ := window_after_read len s hw h1 hr1
    have hlen : (store s.buf (s.readp + (len - 1)) (read s.fd 1).1).length = BUFFER_SIZE := by
      rw [store_length, hw.buflen]
    have hpos := hw.pos
    by_cases hcmp : compare_loop (store s.buf (s.readp + (len - 1)) (read s.fd 1).1) s.readp
        value mask len 0 = len
    · rw [if_pos hcmp] at h
      cases hm : on_match cfg filename
          { s with fd := (read s.fd 1).2,
                   buf := store s.buf (s.readp + (len - 1)) (read s.fd 1).1 } with
      | none =>
        rw [hm] at h
        cases h
      | some p =>
        obtain ⟨s4, e⟩ := p
        cases e with
        | some e =>
          rw [hm] at h
          cases h
        | none =>
          rw [hm] at h
          obtain ⟨a1, a2, a3, a4⟩ := on_match_frame cfg filename _ s4 hm
          by_cases hf : cfg.first_only = true
          · simp only [hcmp, hf, and_self, if_true] at h
            cases h
          · simp only [hcmp, hf, and_false, if_false] at h
            cases h
            obtain ⟨b1, b2⟩ := advance_window len s4 h1 h512 (by rw [a3]; exact hlen)
              (by rw [a4]; exact hw.room) (by rw [a2]; show len ≤ (read s.fd 1).2.pos; omega)
              (by
                intro j hj
                rw [a3, a4, a1, a2]
                exact hwin j hj)
            exact ⟨b1, by rw [b2, a1]; rfl⟩
    · rw [if_neg hcmp] at h
      simp only [hcmp, false_and, if_false] at h
      cases h
      obtain ⟨b1, b2⟩ := advance_window len
        { s with fd := (read s.fd 1).2,
                 buf := store s.buf (s.readp + (len - 1)) (read s.fd 1).1 }
        h1 h512 hlen hw.room (by show len ≤ (read s.fd 1).2.pos; omega) hwin
      exact ⟨b1, by rw [b2]; rfl⟩

theorem visits_window (cfg : Config) (filename : String) (value mask : List Nat) (len : Nat)
    (s0 s : Scan) (h1 : 1 ≤ len) (h512 : len ≤ 512) (hw : Window len s0)
    (hv : Visits cfg filename value mask len s0 s) :
    Window len s ∧ s.fd.data = s0.fd.data := by
  induction hv with
  | start => exact ⟨hw, rfl⟩
  | turn s s1 _ hturn ih =>
    obtain ⟨a1, a2⟩ := search_turn_window cfg filename value mask len s s1 h1 h512 ih.1 hturn
    exact ⟨a1, by rw [a2, ih.2]⟩

/-- C19. Buffer safety of the sliding window: for `1 ≤ len ≤ MAX_PATTERN`,
whatever the source and the options, in every state `s` at the head of the
main loop of `searchfile`, entered after the priming loop, the buffer has
`BUFFER_SIZE` cells, the window `buf[readp .. readp + len)` lies inside it, so
the byte read goes to a cell of the buffer, the compaction copies `len - 1`
cells from inside the buffer, and the window holds the last source bytes
before the file position: `len - 1` of them before the read, `len` after it.
The priming loop too writes inside the buffer. -/
theorem sliding_window_in_bounds (cfg : Config) (filename : String) (value mask : List Nat)
    (len : Nat) (fd1 fd2 : Fd) (buf1 : List Nat) (file_offset : Int) (s : Scan)
    (h1 : 1 ≤ len) (h512 : len ≤ MAX_PATTERN)
    (hprime : prime_loop (len - 1) 0 (len - 1) fd1 (List.replicate BUFFER_SIZE 0) 0 =
      some (true, buf1, fd2))
    (hv : Visits cfg filename value mask len ⟨fd2, buf1, 0, file_offset, 0, []⟩ s) :
    s.buf.length = BUFFER_SIZE ∧ s.readp + len ≤ BUFFER_SIZE ∧
      s.readp + (len - 1) + (read s.fd 1).1.length ≤ s.buf.length ∧
      (s.readp + 1) + (len - 1) ≤ s.buf.length ∧
      s.fd.data = fd1.data ∧ len - 1 ≤ s.fd.pos ∧
      (∀ j, j < len - 1 →
        s.buf.getD (s.readp + j) 0 = fd1.data.getD (s.fd.pos - (len - 1) + j) 0) ∧
      ((read s.fd 1).1.length = 1 → ∀ j, j < len →
        (store s.buf (s.readp + (len - 1)) (read s.fd 1).1).getD (s.readp + j) 0 =
          fd1.data.getD ((read s.fd 1).2.pos - len + j) 0) ∧
      (∀ (fd : Fd) (primed : Nat), primed < len - 1 →
        0 + primed + (read fd (len - 1 - primed)).1.length ≤ BUFFER_SIZE) := by
  have hM : MAX_PATTERN = 512 := rfl
  have hB : BUFFER_SIZE = 1024 := rfl
  rw [hM] at h512
  obtain ⟨p1, p2, p3, p4⟩ := prime_loop_window (len - 1) 0 (by rw [hB]; omega) buf1 fd2 (len - 1)
    fd1 (List.replicate BUFFER_SIZE 0) 0 (List.length_replicate _ _) (Nat.zero_le _)
    (Nat.zero_le _) (fun j hj => absurd hj (Nat.not_lt_zero _)) hprime
  have hw0 : Window len ⟨fd2, buf1, 0, file_offset, 0, []⟩ :=
    ⟨p1, by show 0 + (len - 1) < BUFFER_SIZE; rw [hB]; omega, p2, p4⟩
  obtain ⟨hw, hdata⟩ := visits_window cfg filename value mask len _ s h1 h512 hw0 hv
  have hdata1 : s.fd.data = fd1.data := by rw [hdata]; exact p3
  have hroom := hw.room
  have hlen := hw.buflen
  have hrl := (read_length_le s.fd 1).1
  rw [hB] at hroom
  refine ⟨hlen, by rw [hB]; omega, by rw [hlen, hB]; omega, by rw [hlen, hB]; omega, hdata1,
    hw.pos, ?_, ?_, ?_⟩
  · intro j hj
    rw [← hdata1]
    exact hw.recent j hj
  · intro hr j hj
    rw [← hdata1]
    exact (window_after_read len s hw h1 hr).2 j hj
  · intro fd primed hp
    have := (read_length_le fd (len - 1 - primed)).1
    rw [hB]
    omega

set_option maxRecDepth 100000 in
theorem sliding_window_in_bounds_witness :
    (store (store (List.replicate BUFFER_SIZE 0) 0 [0x61]) 1 [0x62]).length = BUFFER_SIZE ∧
      1 + 2 ≤ BUFFER_SIZE ∧
      ∀ j, j < 2 - 1 →
        (store (store (List.replicate BUFFER_SIZE 0) 0 [0x61]) 1 [0x62]).getD (1 + j) 0 =
          (cstr "abc").getD (2 - (2 - 1) + j) 0 :=
  have h := sliding_window_in_bounds Config.default "f" [0x62, 0x63] [0xFF, 0xFF] 2
    (Fd.file (cstr "abc")) ⟨cstr "abc", 1, true, []⟩
    (store (List.replicate BUFFER_SIZE 0) 0 [0x61]) 0
    ⟨⟨cstr "abc", 2, true, []⟩, store (store (List.replicate BUFFER_SIZE 0) 0 [0x61]) 1 [0x62],
      1, 1, 0, []⟩
    (by decide) (by decide) (by decide)
    (Visits.turn _ _ Visits.start (by decide))
  ⟨h.1, h.2.1, h.2.2.2.2.2.2.1⟩

end Bgrep
